import Mathlib

/-!
Verification of the asn1ate semantic-model builder (`asn1ate/sema.py`).

The development shallowly embeds the sema object model and the operations the
spec talks about:

* the sema node tree (`SemaNode`), its `children`/`descendants` traversal,
* `ConstructedType.auto_tag` and the automatic-tagging pass of
  `build_semantic_model`,
* `Module.resolve_tag_implicitness`, `Module.resolve_selection_type`,
  `Module.user_types` / `get_type_decl`,
* `Imports.__init__` (with Python's identity-keyed dict semantics),
* `topological_sort` (Kahn) and `dependency_sort` (Tarjan).

Python dicts are modelled as association lists with insert-or-update keeping
the original key position, matching CPython's ordered-dict semantics.  Loops
whose termination is not structural are given explicit fuel; the callers pass
a fuel amount proved sufficient, so the fuel-exhaustion branches are dead code
on every input the theorems speak about.
-/

namespace Asn1ate

/-- Tag implicitness enumeration, mirroring `class TagImplicitness`:
`IMPLICIT = 0`, `EXPLICIT = 1`, `AUTOMATIC = 2`. -/
def TagImplicitness.IMPLICIT : Nat := 0

/-- EXPLICIT member of the `TagImplicitness` enumeration. -/
def TagImplicitness.EXPLICIT : Nat := 1

/-- AUTOMATIC member of the `TagImplicitness` enumeration. -/
def TagImplicitness.AUTOMATIC : Nat := 2

/-- Discriminator for the three `ConstructedType` subclasses
(`ChoiceType`, `SequenceType`, `SetType`). -/
inductive ConstructedKind where
  | choice
  | sequence
  | set
deriving DecidableEq, Repr

/-- The sema node tree.  Each constructor mirrors one sema class of the
source; fields keep the source attribute names and order (the order of
attribute assignment in `__init__`, which is what `vars(self)` enumerates).

Omissions relative to the source, none of which the claims touch: the
constraint nodes (`SingleValueConstraint`, `ValueRangeConstraint`,
`SizeConstraint`) and the `constraint` attributes referring to them, value
nodes, OID nodes, and `Exports`.  `TaggedType.type_decl` is an `Option`
because `auto_tag` constructs a `TaggedType` whose `type_decl` is Python
`None` when it wraps a `COMPONENTS OF` component.  `ComponentType` always has
all five attributes (`__init__` assigns them unconditionally before
dispatching), which is why `type_decl` is an `Option` there as well. -/
inductive SemaNode where
  | simpleType (type_name : String)
  | definedType (module_name : Option String) (type_name : String)
  | taggedType (class_name : Option String) (class_number : Option String)
      (type_decl : Option SemaNode) (implicitness : Option Nat)
  | constructedType (kind : ConstructedKind) (components : List SemaNode)
  | collectionType (kind : String) (size_constraint : Option SemaNode)
      (type_decl : SemaNode)
  | componentType (identifier : Option String) (type_decl : Option SemaNode)
      (default_value : Option SemaNode) (optional : Bool)
      (components_of_type : Option SemaNode)
  | extensionMarker

namespace SemaNode

mutual

/-- Boolean structural equality on sema nodes (`deriving` does not handle the
nested inductive, so the instance is built by hand). -/
def beq : SemaNode → SemaNode → Bool
  | .simpleType x, .simpleType y => x == y
  | .definedType m1 t1, .definedType m2 t2 => m1 == m2 && t1 == t2
  | .taggedType a1 b1 td1 i1, .taggedType a2 b2 td2 i2 =>
      a1 == a2 && b1 == b2 && beqOpt td1 td2 && i1 == i2
  | .constructedType k1 cs1, .constructedType k2 cs2 => k1 == k2 && beqList cs1 cs2
  | .collectionType k1 sc1 td1, .collectionType k2 sc2 td2 =>
      k1 == k2 && beqOpt sc1 sc2 && beq td1 td2
  | .componentType i1 td1 dv1 o1 c1, .componentType i2 td2 dv2 o2 c2 =>
      i1 == i2 && beqOpt td1 td2 && beqOpt dv1 dv2 && o1 == o2 && beqOpt c1 c2
  | .extensionMarker, .extensionMarker => true
  | _, _ => false

/-- Boolean equality on optional sema nodes. -/
def beqOpt : Option SemaNode → Option SemaNode → Bool
  | none, none => true
  | some a, some b => beq a b
  | _, _ => false

/-- Boolean equality on lists of sema nodes. -/
def beqList : List SemaNode → List SemaNode → Bool
  | [], [] => true
  | a :: as1, b :: bs => beq a b && beqList as1 bs
  | _, _ => false

end

theorem beq_eq_true_iff : ∀ a b : SemaNode, beq a b = true ↔ a = b := by
  have h := beq.mutual_induct (fun a b => beq a b = true ↔ a = b)
    (fun xs ys => beqList xs ys = true ↔ xs = ys)
    (fun x y => beqOpt x y = true ↔ x = y)
  refine (h ?_ ?_ ?_ ?_ ?_ ?_ ?_ ?_ ?_ ?_ ?_ ?_ ?_ ?_).1
  · intro x y; simp [beq]
  · intro m1 t1 m2 t2; simp [beq, and_assoc]
  · intro a1 b1 td1 i1 a2 b2 td2 i2 ih; simp [beq, ih, and_assoc]
  · intro k1 cs1 k2 cs2 ih; simp [beq, ih, and_assoc]
  · intro k1 sc1 td1 k2 sc2 td2 ih1 ih2; simp [beq, ih1, ih2, and_assoc]
  · intro i1 td1 dv1 o1 c1 i2 td2 dv2 o2 c2 ih1 ih2 ih3
    simp [beq, ih1, ih2, ih3, and_assoc]
  · simp [beq]
  · intro t x h1 h2 h3 h4 h5 h6 h7
    cases t <;> cases x <;>
      first
        | exact (h1 _ _ rfl rfl).elim
        | exact (h2 _ _ _ _ rfl rfl).elim
        | exact (h3 _ _ _ _ _ _ _ _ rfl rfl).elim
        | exact (h4 _ _ _ _ rfl rfl).elim
        | exact (h5 _ _ _ _ _ _ rfl rfl).elim
        | exact (h6 _ _ _ _ _ _ _ _ _ _ rfl rfl).elim
        | exact (h7 rfl rfl).elim
        | (simp [beq])
  · simp [beqOpt]
  · intro a b ih; simpa [beqOpt] using ih
  · intro t x h1 h2
    cases t <;> cases x <;>
      first
        | exact (h1 rfl rfl).elim
        | exact (h2 _ _ rfl rfl).elim
        | (simp [beqOpt])
  · simp [beqList]
  · intro a as1 b bs ih1 ih2; simp [beqList, ih1, ih2]
  · intro t x h1 h2
    cases t <;> cases x <;>
      first
        | exact (h1 rfl rfl).elim
        | exact (h2 _ _ _ _ rfl rfl).elim
        | (simp [beqList])

instance : DecidableEq SemaNode := fun a b =>
  decidable_of_iff (beq a b = true) (beq_eq_true_iff a b)

/-- `SemaNode.children`: the immediate sema-node members, in attribute order,
with list members expanded one level (the reflective implementation of
`SemaNode.children` in the source, written out per variant). -/
def children : SemaNode → List SemaNode
  | .simpleType _ => []
  | .definedType _ _ => []
  | .taggedType _ _ td _ => td.toList
  | .constructedType _ cs => cs
  | .collectionType _ sc td => sc.toList ++ [td]
  | .componentType _ td dv _ cot => td.toList ++ dv.toList ++ cot.toList
  | .extensionMarker => []

mutual

/-- `SemaNode.descendants`: all recursively contained sema nodes, pre-order
(each child followed by its own descendants). -/
def descendants : SemaNode → List SemaNode
  | .simpleType _ => []
  | .definedType _ _ => []
  | .taggedType _ _ td _ => descOpt td
  | .constructedType _ cs => descList cs
  | .collectionType _ sc td => descOpt sc ++ (td :: descendants td)
  | .componentType _ td dv _ cot => descOpt td ++ descOpt dv ++ descOpt cot
  | .extensionMarker => []

/-- Descendants contributed by an optional child. -/
def descOpt : Option SemaNode → List SemaNode
  | none => []
  | some t => t :: descendants t

/-- Descendants contributed by a list of children. -/
def descList : List SemaNode → List SemaNode
  | [] => []
  | t :: ts => (t :: descendants t) ++ descList ts

end

/-- `reference_name` where the node has one: among the modelled variants only
`DefinedType` does (`reference_name()` returning `self.type_name`). -/
def reference_name : SemaNode → Option String
  | .definedType _ tn => some tn
  | _ => none

/-- Python `hasattr(c, 'type_decl')` together with the attribute's value.
Among the modelled variants, `TaggedType`, `CollectionType` and
`ComponentType` carry a `type_decl` attribute; the value is an `Option`
because the attribute can hold Python `None` (a `COMPONENTS OF` component). -/
def typeDeclAttr : SemaNode → Option (Option SemaNode)
  | .taggedType _ _ td _ => some td
  | .collectionType _ _ td => some (some td)
  | .componentType _ td _ _ _ => some td
  | _ => none

/-- Assignment to the `type_decl` attribute (`child.type_decl = tagged_type`
in `auto_tag`).  Only used on nodes for which `typeDeclAttr` is `some`. -/
def setTypeDecl : SemaNode → SemaNode → SemaNode
  | .taggedType a b _ i, v => .taggedType a b (some v) i
  | .collectionType k sc _, v => .collectionType k sc v
  | .componentType i0 _ dv o cot, v => .componentType i0 (some v) dv o cot
  | c, _ => c

/-- Python `isinstance(c, TaggedType)` on a `type_decl` attribute value
(`None` is not a `TaggedType`). -/
def isTaggedType : Option SemaNode → Bool
  | some (.taggedType _ _ _ _) => true
  | _ => false

end SemaNode

/-- The `already_tagged` test of `ConstructedType.auto_tag`:
`component_types` collects the `type_decl` of every component having that
attribute, and `already_tagged` holds when any of them is a `TaggedType`. -/
def already_tagged (cs : List SemaNode) : Bool :=
  (cs.filterMap SemaNode.typeDeclAttr).any SemaNode.isTaggedType

/-- The wrapping loop of `ConstructedType.auto_tag`: enumerate the children
having a `type_decl` attribute and replace each attribute value with
`TaggedType((None, str(tag_number), None, element))` — class name unset,
class number the string form of the ordinal, implicitness unset, inner type
the old attribute value. -/
def auto_tag_wrap (tag_number : Nat) : List SemaNode → List SemaNode
  | [] => []
  | c :: rest =>
    match c.typeDeclAttr with
    | some element =>
        c.setTypeDecl (.taggedType none (some (toString tag_number)) element none)
          :: auto_tag_wrap (tag_number + 1) rest
    | none => c :: auto_tag_wrap tag_number rest

/-- `ConstructedType.auto_tag` as a function on the component list: a no-op
when some component type is already tagged, otherwise the wrapping loop
starting at ordinal 0. -/
def auto_tag (cs : List SemaNode) : List SemaNode :=
  if already_tagged cs then cs else auto_tag_wrap 0 cs

mutual

/-- Number of `ConstructedType` nodes in a term: the termination measure for
the recursive automatic-tagging pass (wrapping a component in a fresh
`TaggedType` preserves it). -/
def ccount : SemaNode → Nat
  | .constructedType _ cs => 1 + ccountList cs
  | .taggedType _ _ td _ => ccountOpt td
  | .collectionType _ sc td => ccountOpt sc + ccount td
  | .componentType _ td dv _ cot => ccountOpt td + ccountOpt dv + ccountOpt cot
  | _ => 0

/-- Constructed-node count of an optional subterm. -/
def ccountOpt : Option SemaNode → Nat
  | none => 0
  | some t => ccount t

/-- Constructed-node count of a list of subterms. -/
def ccountList : List SemaNode → Nat
  | [] => 0
  | t :: ts => ccount t + ccountList ts

end

theorem ccount_setTypeDecl (c : SemaNode) (element : Option SemaNode)
    (h : c.typeDeclAttr = some element) (a b : Option String) (i : Option Nat) :
    ccount (c.setTypeDecl (.taggedType a b element i)) = ccount c := by
  cases c <;>
    simp only [SemaNode.typeDeclAttr, Option.some.injEq, reduceCtorEq] at h <;>
    subst h <;>
    simp [SemaNode.setTypeDecl, ccount, ccountOpt]

theorem ccountList_auto_tag_wrap (n : Nat) (cs : List SemaNode) :
    ccountList (auto_tag_wrap n cs) = ccountList cs := by
  induction cs generalizing n with
  | nil => rfl
  | cons c rest ih =>
    cases hc : c.typeDeclAttr with
    | none => simp [auto_tag_wrap, hc, ccountList, ih]
    | some element =>
      simp [auto_tag_wrap, hc, ccountList, ih, ccount_setTypeDecl c element hc]

theorem ccountList_auto_tag (cs : List SemaNode) :
    ccountList (auto_tag cs) = ccountList cs := by
  unfold auto_tag
  split
  · rfl
  · exact ccountList_auto_tag_wrap 0 cs

theorem ccount_le_of_mem {x : SemaNode} {cs : List SemaNode} (h : x ∈ cs) :
    ccount x ≤ ccountList cs := by
  induction cs with
  | nil => cases h
  | cons c rest ih =>
    rcases List.mem_cons.mp h with rfl | h2
    · simp [ccountList]
    · calc ccount x ≤ ccountList rest := ih h2
        _ ≤ ccountList (c :: rest) := by simp [ccountList]

theorem lex_aux {a1 a2 b1 b2 : Nat} (ha : a1 ≤ a2) (hb : b1 < b2) :
    Prod.Lex (· < ·) (· < ·) (a1, b1) (a2, b2) := by
  rcases Nat.lt_or_ge a1 a2 with h | h
  · exact Prod.Lex.left _ _ h
  · have he : a1 = a2 := Nat.le_antisymm ha h
    subst he
    exact Prod.Lex.right _ hb

mutual

/-- The automatic-tagging pass of `build_semantic_model` as a recursive map:
`auto_tag` is applied to the component list of every `ConstructedType`
descendant.  The source walks the pre-computed pre-order `descendants()`
snapshot and mutates in place; since `auto_tag` on one constructed node
inspects only the top-level constructor of its own components' `type_decl`
attributes — which tagging any other node never changes — applying the wrap
at a node and then recursing into the (wrapped) components is the same
post-state the source reaches. -/
def autoTagAll : SemaNode → SemaNode
  | .simpleType tn => .simpleType tn
  | .definedType mn tn => .definedType mn tn
  | .taggedType a b td i => .taggedType a b (autoTagAllOpt td) i
  | .constructedType k cs =>
      .constructedType k ((auto_tag cs).attach.map fun c => autoTagAll c.1)
  | .collectionType k sc td => .collectionType k (autoTagAllOpt sc) (autoTagAll td)
  | .componentType i0 td dv o cot =>
      .componentType i0 (autoTagAllOpt td) (autoTagAllOpt dv) o (autoTagAllOpt cot)
  | .extensionMarker => .extensionMarker
termination_by t => (ccount t, sizeOf t)
decreasing_by
  all_goals simp_wf
  all_goals
    first
    | (refine lex_aux ?_ ?_ <;> simp +arith [ccount, ccountOpt]
       done)
    | (refine Prod.Lex.left _ _ ?_
       simp only [ccount]
       rename_i c
       have h2 := ccount_le_of_mem c.2
       rw [ccountList_auto_tag] at h2
       omega)

/-- Automatic tagging applied under an optional subterm. -/
def autoTagAllOpt : Option SemaNode → Option SemaNode
  | none => none
  | some t => some (autoTagAll t)
termination_by o => (ccountOpt o, sizeOf o)
decreasing_by
  refine lex_aux ?_ ?_ <;> simp +arith [ccount, ccountOpt]

end

theorem attach_map_eq_map {α β : Type} (l : List α) (f : α → β) :
    (l.attach.map fun c => f c.1) = l.map f := by
  induction l with
  | nil => rfl
  | cons a t ih => simp

@[simp]
theorem autoTagAllOpt_none : autoTagAllOpt none = none := by
  simp [autoTagAllOpt]

@[simp]
theorem autoTagAllOpt_some (t : SemaNode) :
    autoTagAllOpt (some t) = some (autoTagAll t) := by
  simp [autoTagAllOpt]

@[simp]
theorem autoTagAll_simple (tn : String) :
    autoTagAll (.simpleType tn) = .simpleType tn := by
  simp [autoTagAll]

@[simp]
theorem autoTagAll_defined (mn : Option String) (tn : String) :
    autoTagAll (.definedType mn tn) = .definedType mn tn := by
  simp [autoTagAll]

@[simp]
theorem autoTagAll_tagged (a b : Option String) (td : Option SemaNode) (i : Option Nat) :
    autoTagAll (.taggedType a b td i) = .taggedType a b (autoTagAllOpt td) i := by
  simp [autoTagAll]

@[simp]
theorem autoTagAll_constructed (k : ConstructedKind) (cs : List SemaNode) :
    autoTagAll (.constructedType k cs) =
      .constructedType k ((auto_tag cs).map autoTagAll) := by
  rw [autoTagAll]
  rw [attach_map_eq_map]

@[simp]
theorem autoTagAll_collection (k : String) (sc : Option SemaNode) (td : SemaNode) :
    autoTagAll (.collectionType k sc td) =
      .collectionType k (autoTagAllOpt sc) (autoTagAll td) := by
  simp [autoTagAll]

@[simp]
theorem autoTagAll_component (i0 : Option String) (td dv : Option SemaNode)
    (o : Bool) (cot : Option SemaNode) :
    autoTagAll (.componentType i0 td dv o cot) =
      .componentType i0 (autoTagAllOpt td) (autoTagAllOpt dv) o (autoTagAllOpt cot) := by
  simp [autoTagAll]

@[simp]
theorem autoTagAll_marker : autoTagAll .extensionMarker = .extensionMarker := by
  simp [autoTagAll]

/-- A `TypeAssignment`: `type_name ::= type_decl`. -/
structure TypeAssignment where
  type_name : String
  type_decl : SemaNode
deriving DecidableEq

namespace TypeAssignment

/-- `TypeAssignment.reference_name()` returns the assigned name. -/
def reference_name (a : TypeAssignment) : String := a.type_name

/-- The assignment's descendants: its `type_decl` child and that child's
descendants. -/
def descendants (a : TypeAssignment) : List SemaNode :=
  a.type_decl :: a.type_decl.descendants

/-- `Assignment.references()`: the set of `reference_name()` values of all
descendants having one.  The Python `set` is modelled as a duplicate-free
list (`dedup` keeps the first occurrence of each name). -/
def references (a : TypeAssignment) : List String :=
  (a.descendants.filterMap SemaNode.reference_name).dedup

end TypeAssignment

section PythonDict

variable {α β : Type} [DecidableEq α]

/-- Python `dict` assignment `d[k] = v` on an association list: update the
existing entry in place (CPython keeps the key's insertion position), else
append a new entry at the end. -/
def dictInsert : List (α × β) → α → β → List (α × β)
  | [], k, v => [(k, v)]
  | (k0, v0) :: rest, k, v =>
      if k0 = k then (k, v) :: rest else (k0, v0) :: dictInsert rest k v

/-- Python `dict` lookup `d[k]`, with `none` standing for `KeyError`. -/
def dictGet : List (α × β) → α → Option β
  | [], _ => none
  | (k0, v0) :: rest, k => if k0 = k then some v0 else dictGet rest k

/-- The removal part of Python `dict.pop(k, default)`. -/
def dictErase : List (α × β) → α → List (α × β)
  | [], _ => []
  | (k0, v0) :: rest, k => if k0 = k then rest else (k0, v0) :: dictErase rest k

/-- The keys of an association list, in order. -/
def dictKeys (d : List (α × β)) : List α := d.map Prod.fst

end PythonDict

/-- A `Module`: its name, its `tag_default` and its (type) assignments.
`Module.__init__` always stores one of the three `TagImplicitness` values in
`tag_default` (absent tag default becomes EXPLICIT), but
`resolve_tag_implicitness` nevertheless guards for `None`, so the field is an
`Option`.  Exports, imports and value assignments are omitted: no claim
touches them, and they contribute no `ConstructedType` descendants. -/
structure Module where
  name : String
  tag_default : Option Nat
  assignments : List TypeAssignment
deriving DecidableEq

namespace Module

/-- `Module.user_types()`: index all type assignments by name, in a dict
(later assignments with the same name overwrite earlier ones). -/
def user_types (m : Module) : List (String × SemaNode) :=
  m.assignments.foldl (fun d a => dictInsert d a.type_name a.type_decl) []

/-- `Module.get_type_decl`: `user_types()[type_name]`; `none` is `KeyError`. -/
def get_type_decl (m : Module) (type_name : String) : Option SemaNode :=
  dictGet m.user_types type_name

/-- `Module.resolve_tag_implicitness(tag_implicitness, tagged_type_decl)`:
written implicitness wins; an unspecified tag on a `ChoiceType` is EXPLICIT;
otherwise the module default applies (EXPLICIT when absent, IMPLICIT when
the default is AUTOMATIC). -/
def resolve_tag_implicitness (m : Module) (tag_implicitness : Option Nat)
    (tagged_type_decl : SemaNode) : Nat :=
  match tag_implicitness with
  | some ti => ti
  | none =>
    match tagged_type_decl with
    | .constructedType .choice _ => TagImplicitness.EXPLICIT
    | _ =>
      match m.tag_default with
      | none => TagImplicitness.EXPLICIT
      | some td =>
          if td = TagImplicitness.AUTOMATIC then TagImplicitness.IMPLICIT else td

end Module

/-- Failure modes of `resolve_selection_type`: `keyError` is the `KeyError`
escaping from `get_type_decl`, `attrError` the `AttributeError` from reading
`.components` or `.identifier` off a node that lacks the attribute. -/
inductive SelErr where
  | keyError
  | attrError
deriving DecidableEq

instance exceptDecEq {ε α : Type} [DecidableEq ε] [DecidableEq α] :
    DecidableEq (Except ε α)
  | .ok a, .ok b => decidable_of_iff (a = b) (by simp)
  | .error e, .error f => decidable_of_iff (e = f) (by simp)
  | .ok _, .error _ => isFalse (by simp)
  | .error _, .ok _ => isFalse (by simp)

/-- The scanning loop of `resolve_selection_type`: walk
`choice_type.components` and return the `type_decl` of the first component
whose `identifier` equals the selection's identifier, `none` (Python `None`)
when the loop falls through.  Reading `.identifier` off a node without that
attribute (e.g. an `ExtensionMarker`) raises. -/
def scanComponents (identifier : String) : List SemaNode → Except SelErr (Option SemaNode)
  | [] => .ok none
  | .componentType cid ctd _ _ _ :: rest =>
      if cid = some identifier then .ok ctd else scanComponents identifier rest
  | _ :: _ => .error .attrError

/-- `Module.resolve_selection_type`, taking the selection's `identifier` and
the `type_name` of its inner `type_decl` (the only two pieces of the
`SelectionType` node the source reads).  The source's up-front
`isinstance(selection_type_decl, SelectionType)` guard is outside the model:
the arguments are the two attributes a `SelectionType` carries. -/
def Module.resolve_selection_type (m : Module) (identifier type_name : String) :
    Except SelErr (Option SemaNode) :=
  match m.get_type_decl type_name with
  | none => .error .keyError
  | some choice_type =>
    match choice_type with
    | .constructedType _ cs => scanComponents identifier cs
    | _ => .error .attrError

/-- The sema-node descendants of a `Module`: `children()` reflects over the
member variables, so the module's children are its assignments (plus exports
and imports, which are not modelled and own no constructed types), and each
assignment contributes its `type_decl` subtree. -/
def Module.descendants (m : Module) : List SemaNode :=
  m.assignments.flatMap TypeAssignment.descendants

/-- The automatic-tagging post-processing step of `build_semantic_model`,
restricted to one module: when the module's tag default is AUTOMATIC, apply
`auto_tag` to every `ConstructedType` descendant. -/
def Module.autoTagModule (m : Module) : Module :=
  if m.tag_default = some TagImplicitness.AUTOMATIC then
    { m with assignments :=
        m.assignments.map fun a => { a with type_decl := autoTagAll a.type_decl } }
  else m

/-- `build_semantic_model`: construct the modules (here: they are given
already constructed, the token decoding being outside the model), then walk
each module with tag default AUTOMATIC and `auto_tag()` every
`ConstructedType` descendant. -/
def build_semantic_model (root : List Module) : List Module :=
  root.map Module.autoTagModule

/-- `isinstance(tagged_type_decl, ChoiceType)`. -/
def isChoiceType : SemaNode → Bool
  | .constructedType .choice _ => true
  | _ => false

theorem typeDeclAttr_setTypeDecl (c : SemaNode) (e : Option SemaNode)
    (h : c.typeDeclAttr = some e) (v : SemaNode) :
    (c.setTypeDecl v).typeDeclAttr = some (some v) := by
  cases c <;> simp_all [SemaNode.typeDeclAttr, SemaNode.setTypeDecl]

theorem auto_tag_wrap_attr_free (n : Nat) (cs : List SemaNode)
    (h : ∀ c ∈ cs, c.typeDeclAttr = none) : auto_tag_wrap n cs = cs := by
  induction cs generalizing n with
  | nil => rfl
  | cons c rest ih =>
    have hc : c.typeDeclAttr = none := h c (by simp)
    simp [auto_tag_wrap, hc]
    exact ih n fun x hx => h x (by simp [hx])

theorem already_tagged_auto_tag_wrap (n : Nat) (cs : List SemaNode)
    (h : ∃ c ∈ cs, (c.typeDeclAttr).isSome) :
    already_tagged (auto_tag_wrap n cs) = true := by
  induction cs generalizing n with
  | nil => simp at h
  | cons c rest ih =>
    cases hc : c.typeDeclAttr with
    | some e =>
      simp only [auto_tag_wrap, hc]
      simp [already_tagged, typeDeclAttr_setTypeDecl c e hc, SemaNode.isTaggedType]
    | none =>
      have h2 : ∃ x ∈ rest, (x.typeDeclAttr).isSome := by
        rcases h with ⟨x, hx, hs⟩
        rcases List.mem_cons.mp hx with rfl | hx2
        · rw [hc] at hs; simp at hs
        · exact ⟨x, hx2, hs⟩
      simp only [auto_tag_wrap, hc]
      have h3 := ih n h2
      simpa [already_tagged, hc] using h3

/-- Claim C5: `ConstructedType.auto_tag()` is idempotent — when some
component type is already a `TaggedType` the call leaves the component list
unchanged, and in every case a second application returns the result of the
first unchanged. -/
theorem claim_c5_auto_tag_idempotent (cs : List SemaNode) :
    (already_tagged cs = true → auto_tag cs = cs) ∧
    auto_tag (auto_tag cs) = auto_tag cs := by
  constructor
  · intro h; simp [auto_tag, h]
  · by_cases h : already_tagged cs = true
    · simp [auto_tag, h]
    · have h0 : auto_tag cs = auto_tag_wrap 0 cs := by simp [auto_tag, h]
      by_cases hall : ∃ c ∈ cs, (c.typeDeclAttr).isSome
      · have h1 : already_tagged (auto_tag_wrap 0 cs) = true :=
          already_tagged_auto_tag_wrap 0 cs hall
        rw [h0, auto_tag, if_pos h1]
      · have hfree : ∀ c ∈ cs, c.typeDeclAttr = none := by
          intro c hc
          by_contra hne
          exact hall ⟨c, hc, by cases h2 : c.typeDeclAttr <;> simp_all⟩
        have h2 : auto_tag_wrap 0 cs = cs := auto_tag_wrap_attr_free 0 cs hfree
        rw [h0, h2, auto_tag, if_neg h]
        exact h2

/-- Witness for C5 at concrete inputs: a component list with an explicitly
tagged member is left unchanged, and `auto_tag` is idempotent on a list that
does get wrapped. -/
theorem claim_c5_witness :
    (already_tagged
        [SemaNode.componentType (some "a")
            (some (.taggedType none (some "5") (some (.simpleType "INTEGER")) none)) none false none,
          SemaNode.componentType (some "b") (some (.simpleType "BOOLEAN")) none false none] = true ∧
      auto_tag
        [SemaNode.componentType (some "a")
            (some (.taggedType none (some "5") (some (.simpleType "INTEGER")) none)) none false none,
          SemaNode.componentType (some "b") (some (.simpleType "BOOLEAN")) none false none] =
        [SemaNode.componentType (some "a")
            (some (.taggedType none (some "5") (some (.simpleType "INTEGER")) none)) none false none,
          SemaNode.componentType (some "b") (some (.simpleType "BOOLEAN")) none false none]) ∧
    auto_tag (auto_tag [SemaNode.componentType (some "a") (some (.simpleType "INTEGER")) none false none]) =
      auto_tag [SemaNode.componentType (some "a") (some (.simpleType "INTEGER")) none false none] := by
  refine ⟨⟨by decide, ?_⟩, ?_⟩
  · exact (claim_c5_auto_tag_idempotent _).1 (by decide)
  · exact (claim_c5_auto_tag_idempotent _).2

/-- Claim C6: `resolve_tag_implicitness` returns a written implicitness
verbatim; an unspecified tag wrapping a `ChoiceType` resolves to EXPLICIT
whatever the module default; otherwise an unspecified tag resolves to
IMPLICIT under an AUTOMATIC default, to EXPLICIT when the default is absent,
and to the module default in the remaining cases. -/
theorem claim_c6_resolve_tag_implicitness (m : Module) (t : SemaNode) :
    (∀ ti, m.resolve_tag_implicitness (some ti) t = ti) ∧
    (isChoiceType t = true →
      m.resolve_tag_implicitness none t = TagImplicitness.EXPLICIT) ∧
    (isChoiceType t = false → m.tag_default = some TagImplicitness.AUTOMATIC →
      m.resolve_tag_implicitness none t = TagImplicitness.IMPLICIT) ∧
    (isChoiceType t = false → m.tag_default = none →
      m.resolve_tag_implicitness none t = TagImplicitness.EXPLICIT) ∧
    (∀ d, isChoiceType t = false → m.tag_default = some d →
      d ≠ TagImplicitness.AUTOMATIC → m.resolve_tag_implicitness none t = d) := by
  refine ⟨fun ti => rfl, ?_, ?_, ?_, ?_⟩
  · intro hc
    cases t <;> simp [isChoiceType] at hc <;>
      rename_i k cs <;> cases k <;>
      simp_all [Module.resolve_tag_implicitness, isChoiceType]
  · intro hc hd
    cases t <;> try (rename_i k cs; cases k)
    all_goals simp_all [Module.resolve_tag_implicitness, isChoiceType,
      TagImplicitness.AUTOMATIC, TagImplicitness.IMPLICIT]
  · intro hc hd
    cases t <;> try (rename_i k cs; cases k)
    all_goals simp_all [Module.resolve_tag_implicitness, isChoiceType]
  · intro d hc hd hne
    cases t <;> try (rename_i k cs; cases k)
    all_goals simp_all [Module.resolve_tag_implicitness, isChoiceType]

/-- Witness for C6: the spec's scenario — module default IMPLICIT, an
untagged CHOICE resolves EXPLICIT while an untagged INTEGER resolves
IMPLICIT; and an AUTOMATIC default resolves IMPLICIT on a non-choice. -/
theorem claim_c6_witness :
    (Module.mk "M" (some TagImplicitness.IMPLICIT) []).resolve_tag_implicitness none
        (.constructedType .choice []) = TagImplicitness.EXPLICIT ∧
    (Module.mk "M" (some TagImplicitness.IMPLICIT) []).resolve_tag_implicitness none
        (.simpleType "INTEGER") = TagImplicitness.IMPLICIT ∧
    (Module.mk "M" (some TagImplicitness.AUTOMATIC) []).resolve_tag_implicitness none
        (.simpleType "INTEGER") = TagImplicitness.IMPLICIT ∧
    (Module.mk "M" none []).resolve_tag_implicitness none
        (.simpleType "INTEGER") = TagImplicitness.EXPLICIT ∧
    (Module.mk "M" (some TagImplicitness.EXPLICIT) []).resolve_tag_implicitness
        (some TagImplicitness.IMPLICIT) (.simpleType "INTEGER") = TagImplicitness.IMPLICIT := by
  refine ⟨?_, ?_, ?_, ?_, ?_⟩
  · exact (claim_c6_resolve_tag_implicitness _ _).2.1 (by decide)
  · exact (claim_c6_resolve_tag_implicitness _ _).2.2.2.2 TagImplicitness.IMPLICIT
      (by decide) rfl (by decide)
  · exact (claim_c6_resolve_tag_implicitness _ _).2.2.1 (by decide) rfl
  · exact (claim_c6_resolve_tag_implicitness _ _).2.2.2.1 (by decide) rfl
  · exact (claim_c6_resolve_tag_implicitness _ _).1 TagImplicitness.IMPLICIT

/-- Number of components carrying a `type_decl` attribute — the number of
tag ordinals `auto_tag` hands out over the list. -/
def attrCount (cs : List SemaNode) : Nat :=
  (cs.filterMap SemaNode.typeDeclAttr).length

theorem auto_tag_wrap_append (n : Nat) (pre post : List SemaNode) :
    auto_tag_wrap n (pre ++ post) =
      auto_tag_wrap n pre ++ auto_tag_wrap (n + attrCount pre) post := by
  induction pre generalizing n with
  | nil => simp [auto_tag_wrap, attrCount]
  | cons c rest ih =>
    cases hc : c.typeDeclAttr with
    | some e =>
      simp only [List.cons_append, List.append_eq, auto_tag_wrap, hc]
      rw [ih (n + 1)]
      have hcount : attrCount (c :: rest) = attrCount rest + 1 := by
        simp [attrCount, List.filterMap_cons, hc]
      rw [hcount, show n + (attrCount rest + 1) = n + 1 + attrCount rest from by omega]
    | none =>
      simp only [List.cons_append, List.append_eq, auto_tag_wrap, hc]
      rw [ih n]
      have hcount : attrCount (c :: rest) = attrCount rest := by
        simp [attrCount, List.filterMap_cons, hc]
      rw [hcount]

/-- Claim C9: a `COMPONENTS OF` component (a `ComponentType` whose
`type_decl` attribute holds `None` and whose `components_of_type` is set)
still carries the `type_decl` attribute, so when `auto_tag` wraps an
untagged constructed type, the `COMPONENTS OF` component is counted too: its
`None` type_decl is wrapped in a `TaggedType` carrying the next zero-based
ordinal, and every later component's ordinal is shifted past it. -/
theorem claim_c9_components_of_counted (pre post : List SemaNode) (x : SemaNode)
    (h : already_tagged
        (pre ++ SemaNode.componentType none none none false (some x) :: post) = false) :
    auto_tag (pre ++ SemaNode.componentType none none none false (some x) :: post) =
      auto_tag_wrap 0 pre ++
        SemaNode.componentType none
            (some (.taggedType none (some (toString (attrCount pre))) none none))
            none false (some x) ::
          auto_tag_wrap (attrCount pre + 1) post := by
  rw [auto_tag, if_neg (by simp [h])]
  rw [auto_tag_wrap_append 0 pre]
  simp only [Nat.zero_add]
  rfl

/-- Witness for C9: in `SEQUENCE { a INTEGER, COMPONENTS OF Other, b BOOLEAN }`
the `COMPONENTS OF` member consumes ordinal 1, pushing `b` to ordinal 2. -/
theorem claim_c9_witness :
    already_tagged
        [SemaNode.componentType (some "a") (some (.simpleType "INTEGER")) none false none,
          SemaNode.componentType none none none false (some (.definedType none "Other")),
          SemaNode.componentType (some "b") (some (.simpleType "BOOLEAN")) none false none] = false ∧
    auto_tag
        [SemaNode.componentType (some "a") (some (.simpleType "INTEGER")) none false none,
          SemaNode.componentType none none none false (some (.definedType none "Other")),
          SemaNode.componentType (some "b") (some (.simpleType "BOOLEAN")) none false none] =
      [SemaNode.componentType (some "a")
          (some (.taggedType none (some "0") (some (.simpleType "INTEGER")) none)) none false none,
        SemaNode.componentType none
          (some (.taggedType none (some "1") none none)) none false
          (some (.definedType none "Other")),
        SemaNode.componentType (some "b")
          (some (.taggedType none (some "2") (some (.simpleType "BOOLEAN")) none)) none false none] := by
  constructor
  · decide
  · have h := claim_c9_components_of_counted
      [SemaNode.componentType (some "a") (some (.simpleType "INTEGER")) none false none]
      [SemaNode.componentType (some "b") (some (.simpleType "BOOLEAN")) none false none]
      (.definedType none "Other") (by decide)
    simp only [List.cons_append, List.nil_append] at h
    rw [h]
    decide

/-- Well-formedness of the components a `resolve_selection_type` scan can
meet: in any model built by the node factory, a `ComponentType` with a set
`identifier` also has a set `type_decl` (`crack_named_type` assigns both from
a `NamedType`, whose `type_decl` is never `None`). -/
def componentsWellFormed : SemaNode → Bool
  | .constructedType _ cs =>
      cs.all fun c =>
        match c with
        | .componentType (some _) ctd _ _ _ => ctd.isSome
        | _ => true
  | _ => true

theorem scanComponents_ok_none (identifier : String) (cs : List SemaNode)
    (hwf : (cs.all fun c =>
        match c with
        | .componentType (some _) ctd _ _ _ => ctd.isSome
        | _ => true) = true)
    (h : scanComponents identifier cs = .ok none) :
    ∀ c ∈ cs, ∀ cid ctd cdv co ccot,
      c = SemaNode.componentType cid ctd cdv co ccot → cid ≠ some identifier := by
  induction cs with
  | nil => simp
  | cons c rest ih =>
    have hwfc := (List.all_eq_true.mp hwf) c (by simp)
    have hwfr : (rest.all fun c =>
        match c with
        | .componentType (some _) ctd _ _ _ => ctd.isSome
        | _ => true) = true := by
      rw [List.all_eq_true]
      intro x hx
      exact (List.all_eq_true.mp hwf) x (by simp [hx])
    intro c2 hc2 cid ctd cdv co ccot he
    rcases List.mem_cons.mp hc2 with rfl | hmem
    · subst he
      intro hcid
      rw [hcid] at hwfc h
      simp only [scanComponents, if_pos rfl] at h
      simp at hwfc
      rcases Option.isSome_iff_exists.mp hwfc with ⟨v, hv⟩
      rw [hv] at h
      simp at h
    · cases c with
      | componentType cid0 ctd0 cdv0 co0 ccot0 =>
        by_cases hm : cid0 = some identifier
        · rw [scanComponents, if_pos hm] at h
          have := (List.all_eq_true.mp hwf) (.componentType cid0 ctd0 cdv0 co0 ccot0) (by simp)
          rw [hm] at this
          simp at this
          rcases Option.isSome_iff_exists.mp this with ⟨v, hv⟩
          rw [hv] at h
          simp at h
        · rw [scanComponents, if_neg hm] at h
          exact ih hwfr h c2 hmem cid ctd cdv co ccot he
      | simpleType tn => simp [scanComponents] at h
      | definedType mn tn => simp [scanComponents] at h
      | taggedType a b td i => simp [scanComponents] at h
      | constructedType k cs2 => simp [scanComponents] at h
      | collectionType k sc td => simp [scanComponents] at h
      | extensionMarker => simp [scanComponents] at h

/-- Claim C10: `resolve_selection_type` answers `None` only when the named
type is present in `user_types()` and no component's identifier matches the
selection identifier; when the named type is absent the `user_types()[...]`
lookup raises (`KeyError`) instead of returning `None`. -/
theorem claim_c10_resolve_selection_type (m : Module) (identifier type_name : String)
    (hwf : ∀ tdcl, m.get_type_decl type_name = some tdcl → componentsWellFormed tdcl = true) :
    (m.get_type_decl type_name = none →
      m.resolve_selection_type identifier type_name = .error .keyError) ∧
    (m.resolve_selection_type identifier type_name = .ok none →
      ∃ kind cs, m.get_type_decl type_name = some (.constructedType kind cs) ∧
        ∀ c ∈ cs, ∀ cid ctd cdv co ccot,
          c = SemaNode.componentType cid ctd cdv co ccot → cid ≠ some identifier) := by
  constructor
  · intro h
    simp [Module.resolve_selection_type, h]
  · intro h
    cases hg : m.get_type_decl type_name with
    | none => simp [Module.resolve_selection_type, hg] at h
    | some tdcl =>
      cases tdcl with
      | constructedType kind cs =>
        refine ⟨kind, cs, rfl, ?_⟩
        have hwf2 := hwf _ hg
        simp only [componentsWellFormed] at hwf2
        rw [Module.resolve_selection_type, hg] at h
        exact scanComponents_ok_none identifier cs hwf2 h
      | simpleType tn => rw [Module.resolve_selection_type, hg] at h; simp at h
      | definedType mn tn => rw [Module.resolve_selection_type, hg] at h; simp at h
      | taggedType a b td i => rw [Module.resolve_selection_type, hg] at h; simp at h
      | collectionType k sc td => rw [Module.resolve_selection_type, hg] at h; simp at h
      | componentType cid ctd cdv co ccot =>
          rw [Module.resolve_selection_type, hg] at h; simp at h
      | extensionMarker => rw [Module.resolve_selection_type, hg] at h; simp at h

/-- Witness for C10: in `C ::= CHOICE { a INTEGER, b BOOLEAN }`, selecting
`c < C` returns `None` with no matching component, and selecting from an
unknown type name raises. -/
theorem claim_c10_witness :
    ((Module.mk "M" (some TagImplicitness.EXPLICIT)
        [TypeAssignment.mk "C" (.constructedType .choice
          [.componentType (some "a") (some (.simpleType "INTEGER")) none false none,
            .componentType (some "b") (some (.simpleType "BOOLEAN")) none false none])]).get_type_decl
        "Missing" = none ∧
      (Module.mk "M" (some TagImplicitness.EXPLICIT)
        [TypeAssignment.mk "C" (.constructedType .choice
          [.componentType (some "a") (some (.simpleType "INTEGER")) none false none,
            .componentType (some "b") (some (.simpleType "BOOLEAN")) none false none])]).resolve_selection_type
        "c" "Missing" = .error .keyError) ∧
    ((Module.mk "M" (some TagImplicitness.EXPLICIT)
        [TypeAssignment.mk "C" (.constructedType .choice
          [.componentType (some "a") (some (.simpleType "INTEGER")) none false none,
            .componentType (some "b") (some (.simpleType "BOOLEAN")) none false none])]).resolve_selection_type
        "c" "C" = .ok none ∧
      ∃ kind cs,
        (Module.mk "M" (some TagImplicitness.EXPLICIT)
          [TypeAssignment.mk "C" (.constructedType .choice
            [.componentType (some "a") (some (.simpleType "INTEGER")) none false none,
              .componentType (some "b") (some (.simpleType "BOOLEAN")) none false none])]).get_type_decl
          "C" = some (.constructedType kind cs) ∧
        ∀ c ∈ cs, ∀ cid ctd cdv co ccot,
          c = SemaNode.componentType cid ctd cdv co ccot → cid ≠ some "c") := by
  constructor
  · constructor
    · decide
    · exact (claim_c10_resolve_selection_type _ "c" "Missing" (by decide)).1 (by decide)
  · constructor
    · decide
    · exact (claim_c10_resolve_selection_type _ "c" "C" (by decide)).2 (by decide)

theorem autoTagAllOpt_eq_map (o : Option SemaNode) :
    autoTagAllOpt o = o.map autoTagAll := by
  cases o <;> simp

theorem typeDeclAttr_autoTagAll (c : SemaNode) :
    (autoTagAll c).typeDeclAttr = (c.typeDeclAttr).map (Option.map autoTagAll) := by
  cases c <;> simp [SemaNode.typeDeclAttr, autoTagAllOpt_eq_map]

/-- Property checked by claim C1 on a wrapped component list: walking the
components with a running ordinal starting at `n`, every component carrying a
`type_decl` attribute now holds a `TaggedType` whose `class_name` is unset,
whose `class_number` is the string form of the ordinal and whose
`implicitness` is unset, and components without the attribute are passed
over without consuming an ordinal. -/
def wrappedFrom : Nat → List SemaNode → Bool
  | _, [] => true
  | n, c :: rest =>
    match c.typeDeclAttr with
    | some (some (.taggedType none cn _ none)) =>
        (cn == some (toString n)) && wrappedFrom (n + 1) rest
    | some _ => false
    | none => wrappedFrom n rest

theorem wrappedFrom_auto_tag_wrap (cs : List SemaNode) (n : Nat) :
    wrappedFrom n ((auto_tag_wrap n cs).map autoTagAll) = true := by
  induction cs generalizing n with
  | nil => rfl
  | cons c rest ih =>
    cases hc : c.typeDeclAttr with
    | some e =>
      have hattr := typeDeclAttr_setTypeDecl c e hc
        (.taggedType none (some (toString n)) e none)
      simp only [auto_tag_wrap, hc, List.map_cons]
      rw [wrappedFrom]
      rw [typeDeclAttr_autoTagAll, hattr]
      simp [ih (n + 1)]
    | none =>
      simp only [auto_tag_wrap, hc, List.map_cons]
      rw [wrappedFrom]
      rw [typeDeclAttr_autoTagAll, hc]
      simpa using ih n

theorem mem_descList_iff {X : SemaNode} {l : List SemaNode} :
    X ∈ SemaNode.descList l ↔ ∃ c ∈ l, X = c ∨ X ∈ c.descendants := by
  induction l with
  | nil => simp [SemaNode.descList]
  | cons c rest ih =>
    rw [SemaNode.descList]
    constructor
    · intro h
      rcases List.mem_append.mp h with h2 | h2
      · rcases List.mem_cons.mp h2 with he | h3
        · exact ⟨c, by simp, Or.inl he⟩
        · exact ⟨c, by simp, Or.inr h3⟩
      · rcases ih.mp h2 with ⟨c2, hm, hc2⟩
        exact ⟨c2, by simp [hm], hc2⟩
    · rintro ⟨c2, hm, hc2⟩
      rcases List.mem_cons.mp hm with rfl | h3
      · rcases hc2 with rfl | h4
        · exact List.mem_append.mpr (Or.inl (by simp))
        · exact List.mem_append.mpr (Or.inl (by simp [h4]))
      · exact List.mem_append.mpr (Or.inr (ih.mpr ⟨c2, h3, hc2⟩))

theorem auto_tag_wrap_mem (cs : List SemaNode) (c : SemaNode) (hc : c ∈ cs) :
    ∀ n : Nat,
      (c.typeDeclAttr = none ∧ c ∈ auto_tag_wrap n cs) ∨
      (∃ e s, c.typeDeclAttr = some e ∧
        c.setTypeDecl (.taggedType none (some s) e none) ∈ auto_tag_wrap n cs) := by
  induction cs with
  | nil => cases hc
  | cons c0 rest ih =>
    intro n
    rcases List.mem_cons.mp hc with rfl | hmem
    · cases hattr : c.typeDeclAttr with
      | none => exact Or.inl ⟨rfl, by simp [auto_tag_wrap, hattr]⟩
      | some e =>
        exact Or.inr ⟨e, toString n, rfl,
          by simp [auto_tag_wrap, hattr]⟩
    · cases hattr0 : c0.typeDeclAttr with
      | none =>
        rcases ih hmem n with ⟨h1, h2⟩ | ⟨e, s, h1, h2⟩
        · exact Or.inl ⟨h1, by simp [auto_tag_wrap, hattr0, h2]⟩
        · exact Or.inr ⟨e, s, h1, by simp [auto_tag_wrap, hattr0, h2]⟩
      | some e0 =>
        rcases ih hmem (n + 1) with ⟨h1, h2⟩ | ⟨e, s, h1, h2⟩
        · exact Or.inl ⟨h1, by simp [auto_tag_wrap, hattr0, h2]⟩
        · exact Or.inr ⟨e, s, h1, by simp [auto_tag_wrap, hattr0, h2]⟩

theorem sizeOf_pos (t : SemaNode) : 0 < sizeOf t := by
  cases t <;> simp +arith

theorem mem_descendants_autoTagAll :
    ∀ (t : SemaNode) (k : ConstructedKind) (cs : List SemaNode),
      SemaNode.constructedType k cs ∈ t.descendants →
      autoTagAll (SemaNode.constructedType k cs) ∈ (autoTagAll t).descendants := by
  have main : ∀ (N : Nat) (t : SemaNode), sizeOf t ≤ N → ∀ (k : ConstructedKind)
      (cs : List SemaNode), SemaNode.constructedType k cs ∈ t.descendants →
      autoTagAll (SemaNode.constructedType k cs) ∈ (autoTagAll t).descendants := by
    intro N
    induction N with
    | zero =>
      intro t ht
      exact absurd ht (by have := sizeOf_pos t; omega)
    | succ n ihN =>
      intro t ht k cs hd
      have hopt : ∀ (o : Option SemaNode), sizeOf o ≤ n →
          SemaNode.constructedType k cs ∈ SemaNode.descOpt o →
          autoTagAll (SemaNode.constructedType k cs) ∈
            SemaNode.descOpt (autoTagAllOpt o) := by
        intro o ho hm
        cases o with
        | none => simp [SemaNode.descOpt] at hm
        | some u =>
          rw [SemaNode.descOpt] at hm
          rw [autoTagAllOpt_some, SemaNode.descOpt]
          rcases List.mem_cons.mp hm with he | hm2
          · rw [he]
            exact List.mem_cons_self _ _
          · have hu : sizeOf u ≤ n := by simp +arith at ho; omega
            exact List.mem_cons_of_mem _ (ihN u hu k cs hm2)
      cases t with
      | simpleType tn => rw [SemaNode.descendants] at hd; cases hd
      | definedType mn tn => rw [SemaNode.descendants] at hd; cases hd
      | extensionMarker => rw [SemaNode.descendants] at hd; cases hd
      | taggedType a b td i =>
        rw [SemaNode.descendants] at hd
        rw [autoTagAll_tagged, SemaNode.descendants]
        exact hopt td (by simp +arith at ht; omega) hd
      | collectionType k1 sc td =>
        rw [SemaNode.descendants] at hd
        rw [autoTagAll_collection, SemaNode.descendants]
        rcases List.mem_append.mp hd with h2 | h2
        · exact List.mem_append.mpr
            (Or.inl (hopt sc (by simp +arith at ht; omega) h2))
        · refine List.mem_append.mpr (Or.inr ?_)
          rcases List.mem_cons.mp h2 with he | hm2
          · rw [he]; exact List.mem_cons_self _ _
          · have htd : sizeOf td ≤ n := by simp +arith at ht; omega
            exact List.mem_cons_of_mem _ (ihN td htd k cs hm2)
      | componentType i0 td dv o cot =>
        rw [SemaNode.descendants] at hd
        rw [autoTagAll_component, SemaNode.descendants]
        rcases List.mem_append.mp hd with h2 | h2
        · rcases List.mem_append.mp h2 with h3 | h3
          · exact List.mem_append.mpr (Or.inl (List.mem_append.mpr
              (Or.inl (hopt td (by simp +arith at ht; omega) h3))))
          · exact List.mem_append.mpr (Or.inl (List.mem_append.mpr
              (Or.inr (hopt dv (by simp +arith at ht; omega) h3))))
        · exact List.mem_append.mpr
            (Or.inr (hopt cot (by simp +arith at ht; omega) h2))
      | constructedType k0 cs0 =>
        rw [SemaNode.descendants] at hd
        obtain ⟨c, hcmem, hcase⟩ := mem_descList_iff.mp hd
        have hcsize : sizeOf c ≤ n := by
          have h1 : sizeOf c < sizeOf cs0 := List.sizeOf_lt_of_mem hcmem
          simp +arith at ht
          omega
        rw [autoTagAll_constructed, SemaNode.descendants]
        by_cases htag : already_tagged cs0 = true
        · rw [auto_tag, if_pos htag]
          rcases hcase with he | hm
          · exact mem_descList_iff.mpr
              ⟨autoTagAll c, List.mem_map_of_mem _ hcmem, Or.inl (by rw [he])⟩
          · exact mem_descList_iff.mpr
              ⟨autoTagAll c, List.mem_map_of_mem _ hcmem,
                Or.inr (ihN c hcsize k cs hm)⟩
        · rw [auto_tag, if_neg htag]
          rcases auto_tag_wrap_mem cs0 c hcmem 0 with ⟨hattr, hmem1⟩ | ⟨e, s, hattr, hmem1⟩
          · rcases hcase with he | hm
            · exact mem_descList_iff.mpr
                ⟨autoTagAll c, List.mem_map_of_mem _ hmem1, Or.inl (by rw [he])⟩
            · exact mem_descList_iff.mpr
                ⟨autoTagAll c, List.mem_map_of_mem _ hmem1,
                  Or.inr (ihN c hcsize k cs hm)⟩
          · rcases hcase with rfl | hm
            · simp [SemaNode.typeDeclAttr] at hattr
            · refine mem_descList_iff.mpr
                ⟨autoTagAll (c.setTypeDecl (.taggedType none (some s) e none)),
                  List.mem_map_of_mem _ hmem1, Or.inr ?_⟩
              cases c with
              | simpleType tn => simp [SemaNode.typeDeclAttr] at hattr
              | definedType mn tn => simp [SemaNode.typeDeclAttr] at hattr
              | constructedType k2 cs2 => simp [SemaNode.typeDeclAttr] at hattr
              | extensionMarker => simp [SemaNode.typeDeclAttr] at hattr
              | taggedType a b td i =>
                simp only [SemaNode.typeDeclAttr, Option.some.injEq] at hattr
                subst hattr
                rw [SemaNode.descendants] at hm
                simp only [SemaNode.setTypeDecl, autoTagAll_tagged, autoTagAllOpt_some,
                  autoTagAll_tagged]
                rw [SemaNode.descendants, SemaNode.descOpt, SemaNode.descendants]
                refine List.mem_cons_of_mem _ ?_
                exact hopt td (by simp +arith at ht hcsize ⊢; omega) hm
              | collectionType k2 sc td =>
                simp only [SemaNode.typeDeclAttr, Option.some.injEq] at hattr
                subst hattr
                rw [SemaNode.descendants] at hm
                simp only [SemaNode.setTypeDecl, autoTagAll_collection, autoTagAllOpt_some,
                  autoTagAll_tagged]
                rw [SemaNode.descendants]
                rcases List.mem_append.mp hm with h2 | h2
                · exact List.mem_append.mpr
                    (Or.inl (hopt sc (by simp +arith at ht hcsize ⊢; omega) h2))
                · refine List.mem_append.mpr (Or.inr ?_)
                  refine List.mem_cons_of_mem _ ?_
                  rw [SemaNode.descendants, SemaNode.descOpt]
                  rcases List.mem_cons.mp h2 with he2 | hm2
                  · rw [he2]; exact List.mem_cons_self _ _
                  · have htd : sizeOf td ≤ n := by simp +arith at ht hcsize ⊢; omega
                    exact List.mem_cons_of_mem _ (ihN td htd k cs hm2)
              | componentType i0 td dv o cot =>
                simp only [SemaNode.typeDeclAttr, Option.some.injEq] at hattr
                subst hattr
                rw [SemaNode.descendants] at hm
                simp only [SemaNode.setTypeDecl, autoTagAll_component, autoTagAllOpt_some,
                  autoTagAll_tagged]
                rw [SemaNode.descendants]
                rcases List.mem_append.mp hm with h2 | h2
                · rcases List.mem_append.mp h2 with h3 | h3
                  · refine List.mem_append.mpr (Or.inl (List.mem_append.mpr (Or.inl ?_)))
                    rw [SemaNode.descOpt]
                    refine List.mem_cons_of_mem _ ?_
                    rw [SemaNode.descendants]
                    exact hopt td (by simp +arith at ht hcsize ⊢; omega) h3
                  · exact List.mem_append.mpr (Or.inl (List.mem_append.mpr
                      (Or.inr (hopt dv (by simp +arith at ht hcsize ⊢; omega) h3))))
                · exact List.mem_append.mpr
                    (Or.inr (hopt cot (by simp +arith at ht hcsize ⊢; omega) h2))
  intro t k cs hd
  exact main (sizeOf t) t (Nat.le_refl _) k cs hd

/-- Claim C1: after `build_semantic_model`, in every module whose tag default
is AUTOMATIC, every `ConstructedType` descendant either already had a
component whose type was a `TaggedType` before the pass, or its processed
counterpart — a descendant of the processed module, which itself sits in the
build output — has every attribute-bearing component wrapped in a
`TaggedType` with unset class name, the zero-based ordinal as class number,
and unset implicitness. -/
theorem claim_c1_automatic_tagging (root : List Module) (m : Module)
    (hm : m ∈ root) (hauto : m.tag_default = some TagImplicitness.AUTOMATIC)
    (k : ConstructedKind) (cs : List SemaNode)
    (hd : SemaNode.constructedType k cs ∈ m.descendants) :
    already_tagged cs = true ∨
    (Module.autoTagModule m ∈ build_semantic_model root ∧
      autoTagAll (SemaNode.constructedType k cs) ∈ (Module.autoTagModule m).descendants ∧
      wrappedFrom 0 ((auto_tag cs).map autoTagAll) = true) := by
  by_cases htag : already_tagged cs = true
  · exact Or.inl htag
  · refine Or.inr ⟨List.mem_map_of_mem _ hm, ?_, ?_⟩
    · obtain ⟨a, ha, hmem⟩ := List.mem_flatMap.mp hd
      rw [Module.autoTagModule, if_pos hauto, Module.descendants]
      refine List.mem_flatMap.mpr
        ⟨{ a with type_decl := autoTagAll a.type_decl }, List.mem_map_of_mem _ ha, ?_⟩
      rw [TypeAssignment.descendants] at hmem ⊢
      rcases List.mem_cons.mp hmem with he | hm2
      · rw [he]
        exact List.mem_cons_self _ _
      · exact List.mem_cons_of_mem _ (mem_descendants_autoTagAll a.type_decl k cs hm2)
    · rw [auto_tag, if_neg htag]
      exact wrappedFrom_auto_tag_wrap cs 0

/-- Witness for C1: the spec scenario — an AUTOMATIC module with
`T ::= SEQUENCE { a INTEGER, b BOOLEAN, c UTF8String }` gets components
tagged `[0]`, `[1]`, `[2]`. -/
theorem claim_c1_witness :
    already_tagged
        [SemaNode.componentType (some "a") (some (.simpleType "INTEGER")) none false none,
          SemaNode.componentType (some "b") (some (.simpleType "BOOLEAN")) none false none,
          SemaNode.componentType (some "c") (some (.simpleType "UTF8String")) none false none] = true ∨
    (Module.autoTagModule
        (Module.mk "M" (some TagImplicitness.AUTOMATIC)
          [TypeAssignment.mk "T" (.constructedType .sequence
            [SemaNode.componentType (some "a") (some (.simpleType "INTEGER")) none false none,
              SemaNode.componentType (some "b") (some (.simpleType "BOOLEAN")) none false none,
              SemaNode.componentType (some "c") (some (.simpleType "UTF8String")) none false none])]) ∈
        build_semantic_model
          [Module.mk "M" (some TagImplicitness.AUTOMATIC)
            [TypeAssignment.mk "T" (.constructedType .sequence
              [SemaNode.componentType (some "a") (some (.simpleType "INTEGER")) none false none,
                SemaNode.componentType (some "b") (some (.simpleType "BOOLEAN")) none false none,
                SemaNode.componentType (some "c") (some (.simpleType "UTF8String")) none false none])]] ∧
      autoTagAll (SemaNode.constructedType .sequence
          [SemaNode.componentType (some "a") (some (.simpleType "INTEGER")) none false none,
            SemaNode.componentType (some "b") (some (.simpleType "BOOLEAN")) none false none,
            SemaNode.componentType (some "c") (some (.simpleType "UTF8String")) none false none]) ∈
        (Module.autoTagModule
          (Module.mk "M" (some TagImplicitness.AUTOMATIC)
            [TypeAssignment.mk "T" (.constructedType .sequence
              [SemaNode.componentType (some "a") (some (.simpleType "INTEGER")) none false none,
                SemaNode.componentType (some "b") (some (.simpleType "BOOLEAN")) none false none,
                SemaNode.componentType (some "c") (some (.simpleType "UTF8String")) none false none])])).descendants ∧
      wrappedFrom 0
        ((auto_tag
            [SemaNode.componentType (some "a") (some (.simpleType "INTEGER")) none false none,
              SemaNode.componentType (some "b") (some (.simpleType "BOOLEAN")) none false none,
              SemaNode.componentType (some "c") (some (.simpleType "UTF8String")) none false none]).map
          autoTagAll) = true) :=
  claim_c1_automatic_tagging _ _ (by decide) rfl .sequence _ (by decide)

/-- `GlobalModuleReference`: the source module of an import clause, with its
optional definitive OID (held opaquely; no claim looks inside it). -/
structure GlobalModuleReference where
  module : String
  oid : Option String
deriving DecidableEq

/-- `dict.setdefault(k, []).extend(symbols)` on an association list: extend
the entry if the key compares equal to an existing one, else append a new
entry holding the symbols. -/
def setdefaultExtend (d : List ((Nat × GlobalModuleReference) × List String))
    (k : Nat × GlobalModuleReference) (symbols : List String) :
    List ((Nat × GlobalModuleReference) × List String) :=
  if (d.map Prod.fst).contains k then
    d.map fun e => if e.1 = k then (e.1, e.2 ++ symbols) else e
  else d ++ [(k, symbols)]

/-- `Imports.__init__`: for each clause `(symbols, module, oid)` construct a
fresh `GlobalModuleReference` and run
`self.imports.setdefault(module, []).extend(symbols)`.

`GlobalModuleReference` (via `SemaNode`) defines neither `__eq__` nor
`__hash__`, so the Python dict hashes the freshly constructed object by
identity.  The model makes object identity explicit: every constructed
reference is paired with a serial number drawn from a counter that increments
at each construction, so a fresh key never compares equal to an existing one
and `setdefault` always appends. -/
def Imports.ofElements (elements : List (List String × String × Option String)) :
    List ((Nat × GlobalModuleReference) × List String) :=
  (elements.foldl
    (fun acc e =>
      let serial := acc.1
      let module : GlobalModuleReference := ⟨e.2.1, e.2.2⟩
      (serial + 1, setdefaultExtend acc.2 (serial, module) e.1))
    (0, [])).2

/-- Claim C3 evaluated on the code: two import clauses naming the same source
module `X` do NOT merge — the imports dict ends with two entries for `X`,
one per clause, because each clause's `GlobalModuleReference` is a distinct
object and identity-keyed `setdefault` never finds the earlier entry.  The
claim asks for a single entry holding both symbol lists. -/
theorem claim_c3_not_merged :
    Imports.ofElements [(["A"], "X", none), (["B"], "X", none)] =
      [((0, ⟨"X", none⟩), ["A"]), ((1, ⟨"X", none⟩), ["B"])] ∧
    ((Imports.ofElements [(["A"], "X", none), (["B"], "X", none)]).filter
        fun e => e.1.2.module = "X").length = 2 := by
  constructor
  · rfl
  · rfl

/-- The graph of `topological_sort`:
`dict((a.reference_name(), a.references()) for a in assignments)`. -/
def buildGraph (assignments : List TypeAssignment) : List (String × List String) :=
  assignments.foldl (fun g a => dictInsert g a.reference_name a.references) []

/-- `has_predecessor(node)`: does any value set of the graph contain it? -/
def has_predecessor (g : List (String × List String)) (node : String) : Bool :=
  g.any fun p => node ∈ p.2

/-- Fuel bound for the while-loop: one unit per pending root plus, for every
remaining graph entry, one unit for the entry and one per successor it can
push into the roots list.  Every iteration strictly decreases it. -/
def kahnMeasure (g : List (String × List String)) (roots : List String) : Nat :=
  roots.length + (g.map fun p => 1 + p.2.length).sum

/-- The while-loop of `topological_sort`.  Python pops roots from the end of
the list (`roots.pop()`), extends at the end, and prepends each popped root
to the output (`topological_order.insert(0, root)`);
`graph.pop(root, set())` both reads the successors and removes the entry.
Fuel only bounds the iteration count; `topological_sort` passes
`kahnMeasure`, which never runs out (the zero branch is dead code there). -/
def kahnLoop : Nat → List (String × List String) → List String → List String →
    List (String × List String) × List String
  | 0, g, _, order => (g, order)
  | fuel + 1, g, roots, order =>
    if h : roots = [] then (g, order)
    else
      kahnLoop fuel (dictErase g (roots.getLast h))
        (roots.dropLast ++ ((dictGet g (roots.getLast h)).getD []).filter
          fun s => !has_predecessor (dictErase g (roots.getLast h)) s)
        (roots.getLast h :: order)

/-- Insertion step of a stable sort: place the element after every kept
element that compares `le` to it. -/
def insertSorted {α : Type} (le : α → α → Bool) (a : α) : List α → List α
  | [] => [a]
  | b :: bs => if le b a then b :: insertSorted le a bs else a :: b :: bs

/-- Python `sorted` (stable, by a key): fold the input left to right,
inserting each element after its equal-key predecessors. -/
def sortedStable {α : Type} (le : α → α → Bool) (l : List α) : List α :=
  l.foldl (fun acc a => insertSorted le a acc) []

/-- The seed roots: the graph keys no other node references. -/
def initialRoots (g : List (String × List String)) : List String :=
  (dictKeys g).filter fun name => !has_predecessor g name

/-- The loop of `topological_sort` run from the initial state: returns the
residual graph and the computed topological order of names. -/
def kahnRun (assignments : List TypeAssignment) :
    List (String × List String) × List String :=
  kahnLoop (kahnMeasure (buildGraph assignments) (initialRoots (buildGraph assignments)))
    (buildGraph assignments) (initialRoots (buildGraph assignments)) []

/-- `topological_sort`: build the graph, seed the roots with the
predecessor-free names, run the removal loop; a non-empty residual graph is
the `CyclicReferences` failure (the residual graph itself is the error
payload, as the source interpolates it into the exception message), and
otherwise the assignments are sorted by the position of their reference name
in the computed order. -/
def topological_sort (assignments : List TypeAssignment) :
    Except (List (String × List String)) (List TypeAssignment) :=
  if (kahnRun assignments).1.isEmpty then
    .ok (sortedStable
      (fun a b => (kahnRun assignments).2.indexOf a.reference_name ≤
        (kahnRun assignments).2.indexOf b.reference_name)
      assignments)
  else .error (kahnRun assignments).1

/-- Claim C8: on `A ::= SEQUENCE { x B }`, `B ::= INTEGER`,
`C ::= SEQUENCE { y A }` in input order `[A, B, C]`, `topological_sort`
succeeds with `B` before `A` before `C`. -/
theorem claim_c8_concrete_topological_sort :
    topological_sort
        [TypeAssignment.mk "A" (.constructedType .sequence
            [.componentType (some "x") (some (.definedType none "B")) none false none]),
          TypeAssignment.mk "B" (.simpleType "INTEGER"),
          TypeAssignment.mk "C" (.constructedType .sequence
            [.componentType (some "y") (some (.definedType none "A")) none false none])] =
      .ok
        [TypeAssignment.mk "B" (.simpleType "INTEGER"),
          TypeAssignment.mk "A" (.constructedType .sequence
            [.componentType (some "x") (some (.definedType none "B")) none false none]),
          TypeAssignment.mk "C" (.constructedType .sequence
            [.componentType (some "y") (some (.definedType none "A")) none false none])] := by
  decide

/-- Counterexample to claim C2 as stated: with `A ::= SEQUENCE { x B }` and
`B ::= INTEGER`, the assignment `A` depends on `B`, yet in the returned list
the dependency `B` sits at an EARLIER index than the dependant `A` — not a
later one as the claim asserts. -/
theorem claim_c2_counterexample :
    topological_sort
        [TypeAssignment.mk "A" (.constructedType .sequence
            [.componentType (some "x") (some (.definedType none "B")) none false none]),
          TypeAssignment.mk "B" (.simpleType "INTEGER")] =
      .ok
        [TypeAssignment.mk "B" (.simpleType "INTEGER"),
          TypeAssignment.mk "A" (.constructedType .sequence
            [.componentType (some "x") (some (.definedType none "B")) none false none])] ∧
    (TypeAssignment.mk "B" (.simpleType "INTEGER")).reference_name ∈
      (TypeAssignment.mk "A" (.constructedType .sequence
        [.componentType (some "x") (some (.definedType none "B")) none false none])).references ∧
    ¬ ([TypeAssignment.mk "B" (.simpleType "INTEGER"),
          TypeAssignment.mk "A" (.constructedType .sequence
            [.componentType (some "x") (some (.definedType none "B")) none false none])].indexOf
            (TypeAssignment.mk "A" (.constructedType .sequence
              [.componentType (some "x") (some (.definedType none "B")) none false none])) <
        [TypeAssignment.mk "B" (.simpleType "INTEGER"),
          TypeAssignment.mk "A" (.constructedType .sequence
            [.componentType (some "x") (some (.definedType none "B")) none false none])].indexOf
            (TypeAssignment.mk "B" (.simpleType "INTEGER"))) := by
  refine ⟨by decide, by decide, by decide⟩

section DictLemmas

variable {α β : Type} [DecidableEq α]

theorem dictErase_subset (g : List (α × β)) (k : α) :
    ∀ e ∈ dictErase g k, e ∈ g := by
  induction g with
  | nil => simp [dictErase]
  | cons e0 rest ih =>
    intro e he
    rw [show (e0 :: rest : List (α × β)) = (e0.1, e0.2) :: rest from by simp] at *
    rw [dictErase] at he
    by_cases hk : e0.1 = k
    · rw [if_pos hk] at he
      exact List.mem_cons_of_mem _ he
    · rw [if_neg hk] at he
      rcases List.mem_cons.mp he with rfl | h2
      · exact List.mem_cons_self _ _
      · exact List.mem_cons_of_mem _ (ih e h2)

theorem dictKeys_dictErase_subset (g : List (α × β)) (k : α) :
    ∀ x ∈ dictKeys (dictErase g k), x ∈ dictKeys g := by
  intro x hx
  rcases List.mem_map.mp hx with ⟨e, he, rfl⟩
  exact List.mem_map_of_mem _ (dictErase_subset g k e he)

theorem mem_dictKeys_dictErase (g : List (α × β)) (k x : α)
    (hx : x ∈ dictKeys g) (hne : x ≠ k) : x ∈ dictKeys (dictErase g k) := by
  induction g with
  | nil => simp [dictKeys] at hx
  | cons e0 rest ih =>
    rw [show (e0 :: rest : List (α × β)) = (e0.1, e0.2) :: rest from by simp] at *
    rw [dictErase]
    rcases List.mem_cons.mp hx with h1 | h1
    · by_cases hk : e0.1 = k
      · exact absurd (h1.trans hk) hne
      · rw [if_neg hk]
        simp [dictKeys, h1]
    · by_cases hk : e0.1 = k
      · rw [if_pos hk]; exact h1
      · rw [if_neg hk]
        rcases List.mem_map.mp (ih h1) with ⟨e, he, rfl⟩
        exact List.mem_map_of_mem _ (List.mem_cons_of_mem _ he)

theorem not_mem_dictKeys_dictErase (g : List (α × β)) (k : α)
    (h : (dictKeys g).Nodup) : k ∉ dictKeys (dictErase g k) := by
  induction g with
  | nil => simp [dictErase, dictKeys]
  | cons e0 rest ih =>
    rw [show (e0 :: rest : List (α × β)) = (e0.1, e0.2) :: rest from by simp] at *
    rw [dictKeys, List.map_cons] at h
    have hn := List.nodup_cons.mp h
    rw [dictErase]
    by_cases hk : e0.1 = k
    · rw [if_pos hk]
      subst hk
      exact fun hc => hn.1 hc
    · rw [if_neg hk]
      intro hc
      rw [dictKeys, List.map_cons] at hc
      rcases List.mem_cons.mp hc with h2 | h2
      · exact hk h2.symm
      · exact ih hn.2 h2

theorem dictKeys_dictErase_nodup (g : List (α × β)) (k : α)
    (h : (dictKeys g).Nodup) : (dictKeys (dictErase g k)).Nodup := by
  induction g with
  | nil => simp [dictErase, dictKeys]
  | cons e0 rest ih =>
    rw [show (e0 :: rest : List (α × β)) = (e0.1, e0.2) :: rest from by simp] at *
    rw [dictKeys, List.map_cons] at h
    have hn := List.nodup_cons.mp h
    rw [dictErase]
    by_cases hk : e0.1 = k
    · rw [if_pos hk]; exact hn.2
    · rw [if_neg hk]
      rw [dictKeys, List.map_cons]
      refine List.nodup_cons.mpr ⟨?_, ih hn.2⟩
      intro hc
      exact hn.1 (dictKeys_dictErase_subset rest k _ hc)

theorem dictGet_mem (g : List (α × β)) (k : α) (v : β)
    (h : dictGet g k = some v) : (k, v) ∈ g := by
  induction g with
  | nil => simp [dictGet] at h
  | cons e0 rest ih =>
    rw [show (e0 :: rest : List (α × β)) = (e0.1, e0.2) :: rest from by simp] at *
    rw [dictGet] at h
    by_cases hk : e0.1 = k
    · rw [if_pos hk] at h
      subst hk
      cases h
      simp
    · rw [if_neg hk] at h
      exact List.mem_cons_of_mem _ (ih h)

theorem dictGet_eq_none_iff (g : List (α × β)) (k : α) :
    dictGet g k = none ↔ k ∉ dictKeys g := by
  induction g with
  | nil => simp [dictGet, dictKeys]
  | cons e0 rest ih =>
    rw [show (e0 :: rest : List (α × β)) = (e0.1, e0.2) :: rest from by simp] at *
    rw [dictGet, dictKeys, List.map_cons]
    by_cases hk : e0.1 = k
    · rw [if_pos hk]
      simp [hk]
    · rw [if_neg hk]
      rw [ih]
      simp [dictKeys, Ne.symm hk]

theorem dictErase_of_not_mem (g : List (α × β)) (k : α)
    (h : k ∉ dictKeys g) : dictErase g k = g := by
  induction g with
  | nil => rfl
  | cons e0 rest ih =>
    rw [show (e0 :: rest : List (α × β)) = (e0.1, e0.2) :: rest from by simp] at *
    rw [dictKeys, List.map_cons] at h
    rw [dictErase, if_neg (fun hc => h (by simp [hc]))]
    rw [ih fun hc => h (List.mem_cons_of_mem _ hc)]

theorem mem_of_mem_of_not_mem_dictErase (g : List (α × β)) (k : α) (v : β)
    (hnd : (dictKeys g).Nodup) (hget : dictGet g k = some v) :
    ∀ e ∈ g, e ∉ dictErase g k → e = (k, v) := by
  induction g with
  | nil => simp
  | cons e0 rest ih =>
    rw [show (e0 :: rest : List (α × β)) = (e0.1, e0.2) :: rest from by simp] at *
    rw [dictKeys, List.map_cons] at hnd
    have hn := List.nodup_cons.mp hnd
    rw [dictGet] at hget
    intro e he hne
    rw [dictErase] at hne
    by_cases hk : e0.1 = k
    · rw [if_pos hk] at hne
      rw [if_pos hk] at hget
      rcases List.mem_cons.mp he with rfl | h2
      · cases hget; simp [hk]
      · exact absurd h2 hne
    · rw [if_neg hk] at hne
      rw [if_neg hk] at hget
      rcases List.mem_cons.mp he with rfl | h2
      · exact absurd (List.mem_cons_self _ _) hne
      · exact ih hn.2 hget e h2 fun hc => hne (List.mem_cons_of_mem _ hc)

theorem sum_map_dictErase (w : α × β → Nat) (g : List (α × β)) (k : α) (v : β)
    (hget : dictGet g k = some v) :
    (g.map w).sum = ((dictErase g k).map w).sum + w (k, v) := by
  induction g with
  | nil => simp [dictGet] at hget
  | cons e0 rest ih =>
    rw [show (e0 :: rest : List (α × β)) = (e0.1, e0.2) :: rest from by simp] at *
    rw [dictGet] at hget
    rw [dictErase]
    by_cases hk : e0.1 = k
    · rw [if_pos hk] at hget
      rw [if_pos hk]
      cases hget
      subst hk
      simp [Nat.add_comm]
    · rw [if_neg hk] at hget
      rw [if_neg hk]
      simp only [List.map_cons, List.sum_cons, ih hget]
      omega

end DictLemmas

section SortLemmas

variable {α : Type}

theorem insertSorted_perm (le : α → α → Bool) (a : α) (l : List α) :
    (insertSorted le a l).Perm (a :: l) := by
  induction l with
  | nil => simp [insertSorted]
  | cons b bs ih =>
    rw [insertSorted]
    by_cases h : le b a = true
    · rw [if_pos h]
      exact (ih.cons b).trans (List.Perm.swap _ _ _)
    · rw [if_neg h]

theorem foldl_insertSorted_perm (le : α → α → Bool) :
    ∀ (l acc : List α),
      (l.foldl (fun acc a => insertSorted le a acc) acc).Perm (acc ++ l) := by
  intro l
  induction l with
  | nil => simp
  | cons a t ih =>
    intro acc
    rw [List.foldl_cons]
    refine (ih (insertSorted le a acc)).trans ?_
    have h1 : (insertSorted le a acc ++ t).Perm ((a :: acc) ++ t) :=
      List.Perm.append_right t (insertSorted_perm le a acc)
    refine h1.trans ?_
    simpa using (@List.perm_middle _ a acc t).symm

theorem sortedStable_perm (le : α → α → Bool) (l : List α) :
    (sortedStable le l).Perm l := by
  have h := foldl_insertSorted_perm le l []
  simpa [sortedStable] using h

theorem insertSorted_pairwise (le : α → α → Bool)
    (htrans : ∀ u v w, le u v = true → le v w = true → le u w = true)
    (htot : ∀ u v, le u v = true ∨ le v u = true) (a : α) (l : List α)
    (h : l.Pairwise fun u v => le u v = true) :
    (insertSorted le a l).Pairwise fun u v => le u v = true := by
  induction l with
  | nil => simp [insertSorted]
  | cons b bs ih =>
    have hp := List.pairwise_cons.mp h
    rw [insertSorted]
    by_cases hba : le b a = true
    · rw [if_pos hba]
      refine List.pairwise_cons.mpr ⟨?_, ih hp.2⟩
      intro x hx
      have hx2 : x ∈ a :: bs := (insertSorted_perm le a bs).mem_iff.mp hx
      rcases List.mem_cons.mp hx2 with rfl | h3
      · exact hba
      · exact hp.1 x h3
    · rw [if_neg hba]
      have hab : le a b = true := (htot a b).resolve_right hba
      refine List.pairwise_cons.mpr ⟨?_, h⟩
      intro x hx
      rcases List.mem_cons.mp hx with rfl | h3
      · exact hab
      · exact htrans a b x hab (hp.1 x h3)

theorem sortedStable_pairwise (le : α → α → Bool)
    (htrans : ∀ u v w, le u v = true → le v w = true → le u w = true)
    (htot : ∀ u v, le u v = true ∨ le v u = true) (l : List α) :
    (sortedStable le l).Pairwise fun u v => le u v = true := by
  have haux : ∀ (l2 acc : List α), (acc.Pairwise fun u v => le u v = true) →
      ((l2.foldl (fun acc a => insertSorted le a acc) acc).Pairwise
        fun u v => le u v = true) := by
    intro l2
    induction l2 with
    | nil => intro acc h; simpa using h
    | cons a t ih =>
      intro acc h
      rw [List.foldl_cons]
      exact ih _ (insertSorted_pairwise le htrans htot a acc h)
  exact haux l [] (by simp)

theorem indexOf_lt_of_key_lt [DecidableEq α] (key : α → Nat) {l : List α}
    (hpw : l.Pairwise fun u v => key u ≤ key v) (a b : α) (ha : a ∈ l)
    (hb : b ∈ l) (hk : key b < key a) : l.indexOf b < l.indexOf a := by
  by_contra hc
  push_neg at hc
  have hia : l.indexOf a < l.length := List.indexOf_lt_length.mpr ha
  have hib : l.indexOf b < l.length := List.indexOf_lt_length.mpr hb
  have hga : l[l.indexOf a] = a := List.getElem_indexOf hia
  have hgb : l[l.indexOf b] = b := List.getElem_indexOf hib
  rcases Nat.lt_or_eq_of_le hc with h2 | h2
  · have := (List.pairwise_iff_getElem.mp hpw) _ _ hia hib h2
    rw [hga, hgb] at this
    omega
  · have hga2 : l[l.indexOf a]? = some a := by
      rw [List.getElem?_eq_getElem hia, hga]
    have hgb2 : l[l.indexOf b]? = some b := by
      rw [List.getElem?_eq_getElem hib, hgb]
    rw [h2, hgb2] at hga2
    have : a = b := by cases hga2; rfl
    subst this
    omega

end SortLemmas

theorem dictInsert_of_not_mem {α β : Type} [DecidableEq α]
    (g : List (α × β)) (k : α) (v : β) (h : k ∉ dictKeys g) :
    dictInsert g k v = g ++ [(k, v)] := by
  induction g with
  | nil => rfl
  | cons e0 rest ih =>
    rw [show (e0 :: rest : List (α × β)) = (e0.1, e0.2) :: rest from by simp] at *
    rw [dictKeys, List.map_cons] at h
    rw [dictInsert, if_neg (fun hc => h (by simp [hc]))]
    rw [ih fun hc => h (List.mem_cons_of_mem _ hc)]
    simp

theorem buildGraph_eq_map (as : List TypeAssignment)
    (hnd : (as.map TypeAssignment.reference_name).Nodup) :
    buildGraph as = as.map fun a => (a.reference_name, a.references) := by
  have haux : ∀ (l : List TypeAssignment) (g : List (String × List String)),
      (∀ a ∈ l, a.reference_name ∉ dictKeys g) →
      ((l.map TypeAssignment.reference_name).Nodup) →
      l.foldl (fun g a => dictInsert g a.reference_name a.references) g =
        g ++ l.map fun a => (a.reference_name, a.references) := by
    intro l
    induction l with
    | nil => intro g _ _; simp
    | cons a t ih =>
      intro g hkeys hnd2
      rw [List.foldl_cons, dictInsert_of_not_mem g _ _ (hkeys a (by simp))]
      rw [List.map_cons] at hnd2
      have hn := List.nodup_cons.mp hnd2
      rw [ih (g ++ [(a.reference_name, a.references)]) ?_ hn.2]
      · simp
      · intro b hb hc
        rw [dictKeys, List.map_append] at hc
        rcases List.mem_append.mp hc with h2 | h2
        · exact hkeys b (List.mem_cons_of_mem _ hb) h2
        · simp at h2
          exact hn.1 (h2 ▸ List.mem_map_of_mem TypeAssignment.reference_name hb)
  have h := haux as [] (by simp [dictKeys]) hnd
  simpa [buildGraph] using h

theorem references_nodup (a : TypeAssignment) : a.references.Nodup :=
  List.nodup_dedup _

theorem entries_eq_of_keys_nodup {α β : Type} (g : List (α × β))
    (h : (dictKeys g).Nodup) :
    ∀ e1 ∈ g, ∀ e2 ∈ g, e1.1 = e2.1 → e1 = e2 := by
  induction g with
  | nil => simp
  | cons e0 rest ih =>
    rw [dictKeys, List.map_cons] at h
    have hn := List.nodup_cons.mp h
    intro e1 he1 e2 he2 hk
    rcases List.mem_cons.mp he1 with rfl | h1 <;> rcases List.mem_cons.mp he2 with rfl | h2
    · rfl
    · exact absurd (hk ▸ List.mem_map_of_mem Prod.fst h2) hn.1
    · exact absurd (hk ▸ List.mem_map_of_mem Prod.fst h1) hn.1
    · exact ih hn.2 e1 h1 e2 h2 hk

theorem dictGet_isSome_of_mem_keys {α β : Type} [DecidableEq α]
    (g : List (α × β)) (k : α) (h : k ∈ dictKeys g) :
    ∃ v, dictGet g k = some v := by
  cases hg : dictGet g k with
  | none => exact absurd h ((dictGet_eq_none_iff g k).mp hg)
  | some v => exact ⟨v, rfl⟩

theorem has_predecessor_mono (g2 g : List (String × List String))
    (hsub : ∀ e ∈ g2, e ∈ g) (x : String) :
    has_predecessor g2 x = true → has_predecessor g x = true := by
  simp only [has_predecessor, List.any_eq_true, decide_eq_true_eq]
  rintro ⟨e, he, hx⟩
  exact ⟨e, hsub e he, hx⟩

theorem has_predecessor_true_of_mem (g : List (String × List String))
    (e : String × List String) (he : e ∈ g) (x : String) (hx : x ∈ e.2) :
    has_predecessor g x = true := by
  simp only [has_predecessor, List.any_eq_true, decide_eq_true_eq]
  exact ⟨e, he, hx⟩

/-- Invariant of the `topological_sort` while-loop, relative to the initial
graph `G0`: the remaining graph is a sub-dict of `G0`; every initial key is
either still present or already output; output names are no longer keys;
pending roots and output names are all distinct; pending roots and output
names have no predecessor in the remaining graph; every predecessor-free
remaining key is pending; the output is ordered with referenced names in
front of the names referencing them; and any set of names closed under
in-graph predecessors is still intact in the remaining graph. -/
structure KahnInv (G0 g : List (String × List String))
    (roots order : List String) : Prop where
  sub : ∀ e ∈ g, e ∈ G0
  keysNodup : (dictKeys g).Nodup
  keysCover : ∀ k ∈ dictKeys G0, k ∈ dictKeys g ∨ k ∈ order
  orderNotKey : ∀ x ∈ order, x ∉ dictKeys g
  nodupAll : (roots ++ order).Nodup
  rootsFree : ∀ x ∈ roots, has_predecessor g x = false
  orderFree : ∀ x ∈ order, has_predecessor g x = false
  freeInRoots : ∀ k ∈ dictKeys g, has_predecessor g k = false → k ∈ roots
  orderSorted : ∀ x ∈ order, ∀ e ∈ G0, e.1 = x → ∀ y ∈ e.2, y ∈ order →
    order.indexOf y < order.indexOf x
  cyc : ∀ C : List String, (∀ x ∈ C, ∃ e ∈ G0, e.1 ∈ C ∧ x ∈ e.2) →
    (∀ x ∈ C, x ∈ dictKeys G0) → ∀ x ∈ C, x ∈ dictKeys g

theorem kahn_step (G0 : List (String × List String))
    (hG0nd : (dictKeys G0).Nodup) (hGv : ∀ e ∈ G0, e.2.Nodup)
    (g : List (String × List String)) (roots order : List String)
    (hinv : KahnInv G0 g roots order) (hr : roots ≠ []) :
    KahnInv G0 (dictErase g (roots.getLast hr))
      (roots.dropLast ++ ((dictGet g (roots.getLast hr)).getD []).filter
        fun s => !has_predecessor (dictErase g (roots.getLast hr)) s)
      (roots.getLast hr :: order) ∧
    kahnMeasure (dictErase g (roots.getLast hr))
      (roots.dropLast ++ ((dictGet g (roots.getLast hr)).getD []).filter
        fun s => !has_predecessor (dictErase g (roots.getLast hr)) s) <
      kahnMeasure g roots := by
  have hroots_eq : roots.dropLast ++ [roots.getLast hr] = roots :=
    List.dropLast_append_getLast hr
  have hroot_mem : roots.getLast hr ∈ roots := List.getLast_mem hr
  have hroot_free : has_predecessor g (roots.getLast hr) = false :=
    hinv.rootsFree _ hroot_mem
  obtain ⟨hrootsnd, hordernd, hdisj⟩ := List.nodup_append.mp hinv.nodupAll
  have hroot_not_order : roots.getLast hr ∉ order := fun hc => hdisj hroot_mem hc
  have hrestnd : roots.dropLast.Nodup ∧ roots.getLast hr ∉ roots.dropLast := by
    have h2 := hroots_eq ▸ hrootsnd
    obtain ⟨h3, _, h4⟩ := List.nodup_append.mp h2
    exact ⟨h3, fun hc => h4 hc (by simp)⟩
  have hmem_rest : ∀ x ∈ roots, x ≠ roots.getLast hr → x ∈ roots.dropLast := by
    intro x hx hne
    rcases List.mem_append.mp (hroots_eq ▸ hx) with h2 | h2
    · exact h2
    · simp at h2
      exact absurd h2 hne
  have hrest_sub : ∀ x ∈ roots.dropLast, x ∈ roots := by
    intro x hx
    rw [← hroots_eq]
    exact List.mem_append.mpr (Or.inl hx)
  have hrest_order_nodup : (roots.dropLast ++ (roots.getLast hr :: order)).Nodup := by
    have h2 : ((roots.dropLast ++ [roots.getLast hr]) ++ order).Nodup := by
      rw [hroots_eq]; exact hinv.nodupAll
    rw [List.append_assoc] at h2
    simpa using h2
  cases hget : dictGet g (roots.getLast hr) with
  | none =>
    have hroot_not_key : roots.getLast hr ∉ dictKeys g :=
      (dictGet_eq_none_iff g _).mp hget
    have herase : dictErase g (roots.getLast hr) = g :=
      dictErase_of_not_mem g _ hroot_not_key
    rw [herase]
    simp only [Option.getD_none, List.filter_nil, List.append_nil]
    constructor
    · refine ⟨hinv.sub, hinv.keysNodup, ?_, ?_, hrest_order_nodup, ?_, ?_, ?_, ?_, ?_⟩
      · intro k hk
        rcases hinv.keysCover k hk with h2 | h2
        · exact Or.inl h2
        · exact Or.inr (List.mem_cons_of_mem _ h2)
      · intro x hx
        rcases List.mem_cons.mp hx with rfl | h2
        · exact hroot_not_key
        · exact hinv.orderNotKey x h2
      · intro x hx
        exact hinv.rootsFree x (hrest_sub x hx)
      · intro x hx
        rcases List.mem_cons.mp hx with rfl | h2
        · exact hroot_free
        · exact hinv.orderFree x h2
      · intro k hk hfree
        have h2 := hinv.freeInRoots k hk hfree
        exact hmem_rest k h2 fun hc => hroot_not_key (hc ▸ hk)
      · intro x hx e he he1 y hy hyo
        rcases List.mem_cons.mp hx with rfl | hxo
        · have hxkeys : roots.getLast hr ∈ dictKeys G0 :=
            he1 ▸ List.mem_map_of_mem Prod.fst he
          rcases hinv.keysCover _ hxkeys with h2 | h2
          · exact absurd h2 hroot_not_key
          · exact absurd h2 hroot_not_order
        · have hxne : x ≠ roots.getLast hr := fun hc => hroot_not_order (hc ▸ hxo)
          rcases List.mem_cons.mp hyo with rfl | hyo2
          · rw [List.indexOf_cons_self]
            rw [List.indexOf_cons_ne _ (by exact fun hc => hxne hc.symm)]
            omega
          · have hyne : y ≠ roots.getLast hr := fun hc => hroot_not_order (hc ▸ hyo2)
            rw [List.indexOf_cons_ne _ (by exact fun hc => hyne hc.symm),
              List.indexOf_cons_ne _ (by exact fun hc => hxne hc.symm)]
            have := hinv.orderSorted x hxo e he he1 y hy hyo2
            omega
      · exact hinv.cyc
    · rw [kahnMeasure, kahnMeasure]
      have hlen : roots.length = roots.dropLast.length + 1 := by
        rw [← hroots_eq]; simp
      omega
  | some v =>
    have hroot_entry : (roots.getLast hr, v) ∈ g := dictGet_mem g _ v hget
    have hroot_entry0 : (roots.getLast hr, v) ∈ G0 := hinv.sub _ hroot_entry
    have hvnd : v.Nodup := hGv _ hroot_entry0
    have hsub2 : ∀ e ∈ dictErase g (roots.getLast hr), e ∈ g := dictErase_subset g _
    have hkeys2_sub : ∀ x ∈ dictKeys (dictErase g (roots.getLast hr)), x ∈ dictKeys g :=
      dictKeys_dictErase_subset g _
    have hroot_not_key2 : roots.getLast hr ∉ dictKeys (dictErase g (roots.getLast hr)) :=
      not_mem_dictKeys_dictErase g _ hinv.keysNodup
    have hv_pred : ∀ s ∈ v, has_predecessor g s = true := by
      intro s hs
      exact has_predecessor_true_of_mem g _ hroot_entry s hs
    have hnew_not_roots : ∀ s ∈ v, s ∉ roots := by
      intro s hs hc
      have h2 := hinv.rootsFree s hc
      rw [hv_pred s hs] at h2
      cases h2
    have hnew_not_order : ∀ s ∈ v, s ∉ order := by
      intro s hs hc
      have h2 := hinv.orderFree s hc
      rw [hv_pred s hs] at h2
      cases h2
    have hnew_ne_root : ∀ s ∈ v, s ≠ roots.getLast hr := by
      intro s hs hc
      exact hnew_not_roots s hs (hc ▸ hroot_mem)
    simp only [Option.getD_some]
    constructor
    · refine ⟨fun e he => hinv.sub e (hsub2 e he),
        dictKeys_dictErase_nodup g _ hinv.keysNodup, ?_, ?_, ?_, ?_, ?_, ?_, ?_, ?_⟩
      · intro k hk
        rcases hinv.keysCover k hk with h2 | h2
        · by_cases hkr : k = roots.getLast hr
          · exact Or.inr (hkr ▸ List.mem_cons_self _ _)
          · exact Or.inl (mem_dictKeys_dictErase g _ k h2 hkr)
        · exact Or.inr (List.mem_cons_of_mem _ h2)
      · intro x hx
        rcases List.mem_cons.mp hx with rfl | h2
        · exact hroot_not_key2
        · exact fun hc => hinv.orderNotKey x h2 (hkeys2_sub x hc)
      · rw [List.nodup_append]
        refine ⟨?_, ?_, ?_⟩
        · rw [List.nodup_append]
          refine ⟨hrestnd.1, List.Nodup.filter _ hvnd, ?_⟩
          intro x hx hx2
          have hxv := (List.mem_filter.mp hx2).1
          exact hnew_not_roots x hxv (hrest_sub x hx)
        · exact List.nodup_cons.mpr ⟨hroot_not_order, hordernd⟩
        · intro x hx hx2
          rcases List.mem_append.mp hx with h2 | h2
          · rcases List.mem_cons.mp hx2 with rfl | h3
            · exact hrestnd.2 h2
            · exact hdisj (hrest_sub x h2) h3
          · have hxv := (List.mem_filter.mp h2).1
            rcases List.mem_cons.mp hx2 with rfl | h3
            · exact hnew_ne_root _ hxv rfl
            · exact hnew_not_order x hxv h3
      · intro x hx
        rcases List.mem_append.mp hx with h2 | h2
        · have h3 := hinv.rootsFree x (hrest_sub x h2)
          cases h4 : has_predecessor (dictErase g (roots.getLast hr)) x
          · rfl
          · rw [has_predecessor_mono _ g hsub2 x h4] at h3
            cases h3
        · have h3 := (List.mem_filter.mp h2).2
          simpa using h3
      · intro x hx
        rcases List.mem_cons.mp hx with rfl | h2
        · cases h4 : has_predecessor (dictErase g (roots.getLast hr)) (roots.getLast hr)
          · rfl
          · rw [has_predecessor_mono _ g hsub2 _ h4] at hroot_free
            cases hroot_free
        · cases h4 : has_predecessor (dictErase g (roots.getLast hr)) x
          · rfl
          · have h3 := hinv.orderFree x h2
            rw [has_predecessor_mono _ g hsub2 x h4] at h3
            cases h3
      · intro k hk hfree
        have hkne : k ≠ roots.getLast hr := fun hc => hroot_not_key2 (hc ▸ hk)
        have hkg : k ∈ dictKeys g := hkeys2_sub k hk
        cases hkp : has_predecessor g k with
        | false =>
          have h2 := hinv.freeInRoots k hkg hkp
          exact List.mem_append.mpr (Or.inl (hmem_rest k h2 hkne))
        | true =>
          simp only [has_predecessor, List.any_eq_true, decide_eq_true_eq] at hkp
          obtain ⟨e, he, hke⟩ := hkp
          by_cases he2 : e ∈ dictErase g (roots.getLast hr)
          · have h3 := has_predecessor_true_of_mem _ e he2 k hke
            rw [h3] at hfree
            cases hfree
          · have h4 := mem_of_mem_of_not_mem_dictErase g _ v hinv.keysNodup hget e he he2
            refine List.mem_append.mpr (Or.inr (List.mem_filter.mpr ⟨?_, by simp [hfree]⟩))
            rw [h4] at hke
            exact hke
      · intro x hx e he he1 y hy hyo
        rcases List.mem_cons.mp hx with rfl | hxo
        · have hev : e = (roots.getLast hr, v) :=
            entries_eq_of_keys_nodup G0 hG0nd e he _ hroot_entry0 he1
          rcases List.mem_cons.mp hyo with rfl | hyo2
          · rw [hev] at hy
            have h2 := hv_pred _ hy
            rw [h2] at hroot_free
            cases hroot_free
          · rw [hev] at hy
            have h2 := hinv.orderFree y hyo2
            rw [hv_pred y hy] at h2
            cases h2
        · have hxne : x ≠ roots.getLast hr := fun hc => hroot_not_order (hc ▸ hxo)
          rcases List.mem_cons.mp hyo with rfl | hyo2
          · rw [List.indexOf_cons_self]
            rw [List.indexOf_cons_ne _ (by exact fun hc => hxne hc.symm)]
            omega
          · have hyne : y ≠ roots.getLast hr := fun hc => hroot_not_order (hc ▸ hyo2)
            rw [List.indexOf_cons_ne _ (by exact fun hc => hyne hc.symm),
              List.indexOf_cons_ne _ (by exact fun hc => hxne hc.symm)]
            have := hinv.orderSorted x hxo e he he1 y hy hyo2
            omega
      · intro C hC1 hC2 x hx
        have hCg : ∀ z ∈ C, z ∈ dictKeys g := hinv.cyc C hC1 hC2
        have hxne : x ≠ roots.getLast hr := by
          intro hc
          obtain ⟨e, he, heC, hxe⟩ := hC1 x hx
          obtain ⟨w, hw⟩ := dictGet_isSome_of_mem_keys g e.1 (hCg e.1 heC)
          have hwg : (e.1, w) ∈ g := dictGet_mem g e.1 w hw
          have hew : e = (e.1, w) :=
            entries_eq_of_keys_nodup G0 hG0nd e he (e.1, w) (hinv.sub _ hwg) rfl
          have h2 := has_predecessor_true_of_mem g (e.1, w) hwg x (by rw [← hew]; exact hxe)
          rw [hc] at h2
          rw [h2] at hroot_free
          cases hroot_free
        exact mem_dictKeys_dictErase g _ x (hCg x hx) hxne
    · rw [kahnMeasure, kahnMeasure]
      have hlen : roots.length = roots.dropLast.length + 1 := by
        rw [← hroots_eq]; simp
      have hsum : (g.map fun p => 1 + p.2.length).sum =
          ((dictErase g (roots.getLast hr)).map fun p => 1 + p.2.length).sum +
            (1 + v.length) :=
        sum_map_dictErase (fun p => 1 + p.2.length) g (roots.getLast hr) v hget
      have hfl : (v.filter fun s =>
          !has_predecessor (dictErase g (roots.getLast hr)) s).length ≤ v.length :=
        List.length_filter_le _ _
      simp only [List.length_append]
      omega

theorem kahnLoop_spec (G0 : List (String × List String))
    (hG0nd : (dictKeys G0).Nodup) (hGv : ∀ e ∈ G0, e.2.Nodup) :
    ∀ (fuel : Nat) (g : List (String × List String)) (roots order : List String),
      KahnInv G0 g roots order → kahnMeasure g roots ≤ fuel →
      KahnInv G0 (kahnLoop fuel g roots order).1 [] (kahnLoop fuel g roots order).2 := by
  intro fuel
  induction fuel with
  | zero =>
    intro g roots order hinv hf
    have hroots : roots = [] := by
      rw [kahnMeasure] at hf
      cases roots with
      | nil => rfl
      | cons a t =>
        rw [List.length_cons] at hf
        omega
    subst hroots
    simpa [kahnLoop] using hinv
  | succ n ih =>
    intro g roots order hinv hf
    by_cases hroots : roots = []
    · subst hroots
      simpa [kahnLoop] using hinv
    · obtain ⟨hinv2, hdec⟩ := kahn_step G0 hG0nd hGv g roots order hinv hroots
      rw [kahnLoop, dif_neg hroots]
      exact ih _ _ _ hinv2 (by omega)

theorem buildGraph_keys (as : List TypeAssignment)
    (hnd : (as.map TypeAssignment.reference_name).Nodup) :
    dictKeys (buildGraph as) = as.map TypeAssignment.reference_name := by
  rw [buildGraph_eq_map as hnd]
  simp [dictKeys]

theorem buildGraph_values_nodup (as : List TypeAssignment)
    (hnd : (as.map TypeAssignment.reference_name).Nodup) :
    ∀ e ∈ buildGraph as, e.2.Nodup := by
  intro e he
  rw [buildGraph_eq_map as hnd] at he
  rcases List.mem_map.mp he with ⟨a, _, rfl⟩
  exact references_nodup a

theorem kahn_initial (as : List TypeAssignment)
    (hnd : (as.map TypeAssignment.reference_name).Nodup) :
    KahnInv (buildGraph as) (buildGraph as) (initialRoots (buildGraph as)) [] := by
  have hkeysnd : (dictKeys (buildGraph as)).Nodup := by
    rw [buildGraph_keys as hnd]
    exact hnd
  refine ⟨fun e he => he, hkeysnd, fun k hk => Or.inl hk, by simp, ?_, ?_, by simp,
    ?_, by simp, ?_⟩
  · simpa [initialRoots] using List.Nodup.filter _ hkeysnd
  · intro x hx
    have h2 := (List.mem_filter.mp hx).2
    simpa using h2
  · intro k hk hfree
    exact List.mem_filter.mpr ⟨hk, by simp [hfree]⟩
  · intro C h1 h2 x hx
    exact h2 x hx

/-- The dependency relation between reference names: `depends as x y` holds
when some assignment in `as` is named `x` and references `y`. -/
def depends (as : List TypeAssignment) (x y : String) : Prop :=
  ∃ a ∈ as, a.reference_name = x ∧ y ∈ a.references

/-- Claim C2, amended: on duplicate-free names with a well-founded (acyclic)
reference relation, `topological_sort` succeeds, returns a permutation of
its input, and places every assignment AFTER all assignments it
(transitively) depends on — dependencies come first, i.e. at smaller
indices, not at larger ones as the original claim stated. -/
theorem claim_c2_amended_topological_sort (as : List TypeAssignment)
    (hnd : (as.map TypeAssignment.reference_name).Nodup)
    (hacyclic : WellFounded (depends as)) :
    ∃ l, topological_sort as = .ok l ∧ l.Perm as ∧
      ∀ a b : TypeAssignment, a ∈ as → b ∈ as →
        Relation.TransGen
          (fun u v => u ∈ as ∧ v ∈ as ∧ v.reference_name ∈ u.references) a b →
        l.indexOf b < l.indexOf a := by
  have hG0nd : (dictKeys (buildGraph as)).Nodup := by
    rw [buildGraph_keys as hnd]
    exact hnd
  have hGv := buildGraph_values_nodup as hnd
  have hfinal : KahnInv (buildGraph as) (kahnRun as).1 [] (kahnRun as).2 :=
    kahnLoop_spec (buildGraph as) hG0nd hGv
      (kahnMeasure (buildGraph as) (initialRoots (buildGraph as)))
      (buildGraph as) (initialRoots (buildGraph as)) [] (kahn_initial as hnd)
      (Nat.le_refl _)
  have hg2 : (kahnRun as).1 = [] := by
    by_contra hne
    have hnonempty : ∃ e, e ∈ (kahnRun as).1 := by
      cases h : (kahnRun as).1 with
      | nil => exact absurd h hne
      | cons a t => exact ⟨a, List.mem_cons_self _ _⟩
    obtain ⟨e0, he0⟩ := hnonempty
    obtain ⟨m, hmS, hmin⟩ := hacyclic.has_min {x | x ∈ dictKeys (kahnRun as).1}
      ⟨e0.1, List.mem_map_of_mem _ he0⟩
    have hpred : has_predecessor (kahnRun as).1 m = true := by
      cases hp : has_predecessor (kahnRun as).1 m with
      | true => rfl
      | false => exact absurd (hfinal.freeInRoots m hmS hp) (List.not_mem_nil m)
    simp only [has_predecessor, List.any_eq_true, decide_eq_true_eq] at hpred
    obtain ⟨e, he, hme⟩ := hpred
    have heG0 : e ∈ buildGraph as := hfinal.sub e he
    rw [buildGraph_eq_map as hnd] at heG0
    obtain ⟨a, ha, hae⟩ := List.mem_map.mp heG0
    have hdep : depends as e.1 m := by
      refine ⟨a, ha, ?_, ?_⟩
      · rw [← hae]
      · rw [← hae] at hme
        simpa using hme
    exact hmin e.1 (List.mem_map_of_mem _ he) hdep
  have hcover : ∀ k ∈ dictKeys (buildGraph as), k ∈ (kahnRun as).2 := by
    intro k hk
    rcases hfinal.keysCover k hk with h2 | h2
    · rw [hg2] at h2
      simp [dictKeys] at h2
    · exact h2
  have hts : topological_sort as = .ok (sortedStable
      (fun a b => (kahnRun as).2.indexOf a.reference_name ≤
        (kahnRun as).2.indexOf b.reference_name) as) := by
    rw [topological_sort, if_pos (by rw [hg2]; rfl)]
  refine ⟨_, hts, sortedStable_perm _ as, ?_⟩
  have hsorted := sortedStable_pairwise
    (fun a b : TypeAssignment => ((kahnRun as).2.indexOf a.reference_name ≤
      (kahnRun as).2.indexOf b.reference_name : Bool))
    (by intro u v w h1 h2; simp only [decide_eq_true_eq] at h1 h2 ⊢; omega)
    (by
      intro u v
      rcases Nat.le_total ((kahnRun as).2.indexOf u.reference_name)
        ((kahnRun as).2.indexOf v.reference_name) with h | h
      · exact Or.inl (by simpa using h)
      · exact Or.inr (by simpa using h)) as
  have hpw : (sortedStable
      (fun a b : TypeAssignment => ((kahnRun as).2.indexOf a.reference_name ≤
        (kahnRun as).2.indexOf b.reference_name : Bool)) as).Pairwise
      fun u v => (kahnRun as).2.indexOf u.reference_name ≤
        (kahnRun as).2.indexOf v.reference_name := by
    refine hsorted.imp ?_
    intro u v h
    simpa using h
  have hedge : ∀ a b : TypeAssignment, a ∈ as → b ∈ as →
      b.reference_name ∈ a.references →
      (kahnRun as).2.indexOf b.reference_name <
        (kahnRun as).2.indexOf a.reference_name := by
    intro a b ha hb href
    have hea : (a.reference_name, a.references) ∈ buildGraph as := by
      rw [buildGraph_eq_map as hnd]
      exact List.mem_map_of_mem _ ha
    have hxa : a.reference_name ∈ (kahnRun as).2 := by
      refine hcover _ ?_
      rw [buildGraph_keys as hnd]
      exact List.mem_map_of_mem _ ha
    have hxb : b.reference_name ∈ (kahnRun as).2 := by
      refine hcover _ ?_
      rw [buildGraph_keys as hnd]
      exact List.mem_map_of_mem _ hb
    exact hfinal.orderSorted a.reference_name hxa _ hea rfl b.reference_name href hxb
  intro a b ha hb htg
  clear ha hb
  induction htg with
  | single h =>
    exact indexOf_lt_of_key_lt
      (fun t : TypeAssignment => (kahnRun as).2.indexOf t.reference_name) hpw _ _
      (((sortedStable_perm _ as).mem_iff).mpr h.1)
      (((sortedStable_perm _ as).mem_iff).mpr h.2.1) (hedge _ _ h.1 h.2.1 h.2.2)
  | tail htg2 h ih =>
    obtain ⟨hm1, hm2, hm3⟩ := h
    have hpos := indexOf_lt_of_key_lt
      (fun t : TypeAssignment => (kahnRun as).2.indexOf t.reference_name) hpw _ _
      (((sortedStable_perm _ as).mem_iff).mpr hm1)
      (((sortedStable_perm _ as).mem_iff).mpr hm2) (hedge _ _ hm1 hm2 hm3)
    exact lt_trans hpos ih

/-- Witness for the amended C2 at the concrete acyclic input of scenario 3:
the name list is duplicate-free, the dependency relation is well-founded
(via the rank B=0, A=1, C=2), and the theorem applies. -/
theorem claim_c2_amended_witness :
    ([TypeAssignment.mk "A" (.constructedType .sequence
          [.componentType (some "x") (some (.definedType none "B")) none false none]),
        TypeAssignment.mk "B" (.simpleType "INTEGER"),
        TypeAssignment.mk "C" (.constructedType .sequence
          [.componentType (some "y") (some (.definedType none "A")) none false none])].map
        TypeAssignment.reference_name).Nodup ∧
    ∃ l, topological_sort
        [TypeAssignment.mk "A" (.constructedType .sequence
            [.componentType (some "x") (some (.definedType none "B")) none false none]),
          TypeAssignment.mk "B" (.simpleType "INTEGER"),
          TypeAssignment.mk "C" (.constructedType .sequence
            [.componentType (some "y") (some (.definedType none "A")) none false none])] =
        .ok l ∧
      l.Perm
        [TypeAssignment.mk "A" (.constructedType .sequence
            [.componentType (some "x") (some (.definedType none "B")) none false none]),
          TypeAssignment.mk "B" (.simpleType "INTEGER"),
          TypeAssignment.mk "C" (.constructedType .sequence
            [.componentType (some "y") (some (.definedType none "A")) none false none])] ∧
      ∀ a b : TypeAssignment,
        a ∈ [TypeAssignment.mk "A" (.constructedType .sequence
            [.componentType (some "x") (some (.definedType none "B")) none false none]),
          TypeAssignment.mk "B" (.simpleType "INTEGER"),
          TypeAssignment.mk "C" (.constructedType .sequence
            [.componentType (some "y") (some (.definedType none "A")) none false none])] →
        b ∈ [TypeAssignment.mk "A" (.constructedType .sequence
            [.componentType (some "x") (some (.definedType none "B")) none false none]),
          TypeAssignment.mk "B" (.simpleType "INTEGER"),
          TypeAssignment.mk "C" (.constructedType .sequence
            [.componentType (some "y") (some (.definedType none "A")) none false none])] →
        Relation.TransGen
          (fun u v => u ∈ [TypeAssignment.mk "A" (.constructedType .sequence
              [.componentType (some "x") (some (.definedType none "B")) none false none]),
            TypeAssignment.mk "B" (.simpleType "INTEGER"),
            TypeAssignment.mk "C" (.constructedType .sequence
              [.componentType (some "y") (some (.definedType none "A")) none false none])] ∧
            v ∈ [TypeAssignment.mk "A" (.constructedType .sequence
              [.componentType (some "x") (some (.definedType none "B")) none false none]),
            TypeAssignment.mk "B" (.simpleType "INTEGER"),
            TypeAssignment.mk "C" (.constructedType .sequence
              [.componentType (some "y") (some (.definedType none "A")) none false none])] ∧
            v.reference_name ∈ u.references) a b →
        l.indexOf b < l.indexOf a := by
  refine ⟨by decide, ?_⟩
  refine claim_c2_amended_topological_sort _ (by decide) ?_
  refine Subrelation.wf (r := fun x y : String =>
      (if x = "B" then 2 else if x = "A" then 1 else (0 : Nat)) <
      (if y = "B" then 2 else if y = "A" then 1 else 0)) ?_ ?_
  · rintro x y ⟨a, ha, rfl, hy⟩
    simp only [List.mem_cons, List.not_mem_nil, or_false] at ha
    rcases ha with rfl | rfl | rfl
    · have hy2 : y ∈ ["B"] := hy
      have : y = "B" := by simpa using hy2
      subst this
      decide
    · have hy2 : y ∈ ([] : List String) := hy
      simp at hy2
    · have hy2 : y ∈ ["A"] := hy
      have : y = "A" := by simpa using hy2
      subst this
      decide
  · exact InvImage.wf
      (fun s : String => if s = "B" then 2 else if s = "A" then 1 else 0)
      (Nat.lt_wfRel.wf)

theorem chain_pred {r : String → String → Prop} :
    ∀ (x : String) (l : List String), List.Chain r x l →
      ∀ y ∈ l, ∃ p ∈ x :: l, r p y := by
  intro x l
  induction l generalizing x with
  | nil => intro _ y hy; cases hy
  | cons b t ih =>
    intro hch y hy
    have hc := List.chain_cons.mp hch
    rcases List.mem_cons.mp hy with rfl | h2
    · exact ⟨x, List.mem_cons_self _ _, hc.1⟩
    · obtain ⟨p, hp, hr⟩ := ih b hc.2 y h2
      exact ⟨p, List.mem_cons_of_mem _ hp, hr⟩

/-- Claim C7: when the reference graph contains a cycle among the
assignments' own names — a chain `x0 → … → last` of member-to-member
references closing back on `x0` — `topological_sort` fails with the
`CyclicReferences` error carrying a non-empty residual graph, and the whole
cycle is still in the residual graph it reports. -/
theorem claim_c7_cyclic_references (as : List TypeAssignment)
    (hnd : (as.map TypeAssignment.reference_name).Nodup)
    (x0 : String) (c : List String)
    (hmem : ∀ x ∈ x0 :: c, x ∈ as.map TypeAssignment.reference_name)
    (hchain : List.Chain (depends as) x0 c)
    (hback : depends as ((x0 :: c).getLast (List.cons_ne_nil x0 c)) x0) :
    ∃ residual, topological_sort as = .error residual ∧ residual ≠ [] ∧
      ∀ x ∈ x0 :: c, x ∈ dictKeys residual := by
  have hG0nd : (dictKeys (buildGraph as)).Nodup := by
    rw [buildGraph_keys as hnd]
    exact hnd
  have hGv := buildGraph_values_nodup as hnd
  have hfinal : KahnInv (buildGraph as) (kahnRun as).1 [] (kahnRun as).2 :=
    kahnLoop_spec (buildGraph as) hG0nd hGv
      (kahnMeasure (buildGraph as) (initialRoots (buildGraph as)))
      (buildGraph as) (initialRoots (buildGraph as)) [] (kahn_initial as hnd)
      (Nat.le_refl _)
  have hclosed : ∀ y ∈ x0 :: c, ∃ e ∈ buildGraph as, e.1 ∈ x0 :: c ∧ y ∈ e.2 := by
    intro y hy
    rcases List.mem_cons.mp hy with rfl | h2
    · obtain ⟨a, ha, hname, hyref⟩ := hback
      refine ⟨(a.reference_name, a.references), ?_, ?_, hyref⟩
      · rw [buildGraph_eq_map as hnd]
        exact List.mem_map_of_mem _ ha
      · rw [hname]
        exact List.getLast_mem _
    · obtain ⟨p, hp, hdep⟩ := chain_pred x0 c hchain y h2
      obtain ⟨a, ha, hname, hyref⟩ := hdep
      refine ⟨(a.reference_name, a.references), ?_, ?_, hyref⟩
      · rw [buildGraph_eq_map as hnd]
        exact List.mem_map_of_mem _ ha
      · rw [hname]
        exact hp
  have hsubkeys : ∀ x ∈ x0 :: c, x ∈ dictKeys (buildGraph as) := by
    intro x hx
    rw [buildGraph_keys as hnd]
    exact hmem x hx
  have hC := hfinal.cyc (x0 :: c) hclosed hsubkeys
  have hg2ne : (kahnRun as).1 ≠ [] := by
    intro h0
    have h1 := hC x0 (List.mem_cons_self _ _)
    rw [h0] at h1
    simp [dictKeys] at h1
  refine ⟨(kahnRun as).1, ?_, hg2ne, hC⟩
  rw [topological_sort, if_neg]
  intro hc
  exact hg2ne (List.isEmpty_iff.mp hc)

/-- Witness for C7: `A ::= SEQUENCE { x B }`, `B ::= SEQUENCE { y A }` — the
two-element cycle makes `topological_sort` fail with a non-empty residual
graph containing both names. -/
theorem claim_c7_witness :
    ∃ residual, topological_sort
        [TypeAssignment.mk "A" (.constructedType .sequence
            [.componentType (some "x") (some (.definedType none "B")) none false none]),
          TypeAssignment.mk "B" (.constructedType .sequence
            [.componentType (some "y") (some (.definedType none "A")) none false none])] =
        .error residual ∧ residual ≠ [] ∧
      ∀ x ∈ ["A", "B"], x ∈ dictKeys residual :=
  claim_c7_cyclic_references _ (by decide) "A" ["B"] (by decide)
    (List.Chain.cons (by unfold depends; decide) (List.Chain.nil))
    (by unfold depends; decide)

/-- State of Tarjan's algorithm in `dependency_sort`: the index counter, the
stack (top at the HEAD — Python appends to and pops from the end of its
list, so the model's head is Python's end), the `lowlinks` and `index` dicts
(`lowlinks` doubling as the visited set), and the components emitted so far
(each listed in pop order).  Python keys the dicts and the stack by object
identity; on inputs with duplicate-free reference names the assignments are
pairwise distinct, so structural equality coincides with identity. -/
structure TarjanState where
  counter : Nat
  stack : List TypeAssignment
  lowlinks : List (TypeAssignment × Nat)
  index : List (TypeAssignment × Nat)
  result : List (List TypeAssignment)
deriving DecidableEq

/-- The adjacency list of a node (`graph.get(node, [])`). -/
def succsOf (graph : List (TypeAssignment × List TypeAssignment))
    (v : TypeAssignment) : List TypeAssignment :=
  (dictGet graph v).getD []

/-- Pop the stack down to and including `v`: the `while True:
successor = stack.pop(); connected_component.append(successor); if successor
== node: break` loop.  Returns the component in pop order and the remaining
stack. -/
def popComponent (v : TypeAssignment) : List TypeAssignment →
    List TypeAssignment × List TypeAssignment
  | [] => ([], [])
  | x :: rest =>
    if x = v then ([x], rest)
    else ((x :: (popComponent v rest).1), (popComponent v rest).2)

/-- `lowlinks[node] = min(lowlinks[node], lowlinks[successor])`, executed
after the recursive `strongconnect(successor)` call. -/
def visitAbsorb (v w : TypeAssignment) (s : TarjanState) : TarjanState :=
  { s with
    lowlinks :=
      dictInsert s.lowlinks v
        (min ((dictGet s.lowlinks v).getD 0) ((dictGet s.lowlinks w).getD 0)) }

/-- The tail of `strongconnect`: if `lowlinks[node] == index[node]`, pop the
stack down to `node` and append the popped component to the result. -/
def visitFinish (v : TypeAssignment) (s : TarjanState) : TarjanState :=
  if dictGet s.lowlinks v = dictGet s.index v then
    { s with stack := (popComponent v s.stack).2
             result := s.result ++ [(popComponent v s.stack).1] }
  else s

/-- The loop `for successor in successors` of `strongconnect`: recurse on
unvisited successors (through `sc`, the recursive call at one less fuel)
and fold their lowlink in; absorb the index of successors still on the
stack; ignore the rest. -/
def visitList (sc : TypeAssignment → TarjanState → TarjanState)
    (v : TypeAssignment) : List TypeAssignment → TarjanState → TarjanState
  | [], s => s
  | w :: ws, s =>
    visitList sc v ws
      (if (dictGet s.lowlinks w).isNone then
        visitAbsorb v w (sc w s)
      else if w ∈ s.stack then
        { s with
          lowlinks :=
            dictInsert s.lowlinks v
              (min ((dictGet s.lowlinks v).getD 0) ((dictGet s.index w).getD 0)) }
      else s)

/-- `strongconnect(node)`: set the node's index and lowlink to the counter,
push it, visit the successors, and if the node closed its own component
(`lowlinks[node] == index[node]`) pop the stack down to it and emit the
component.  Fuel only bounds the recursion depth; each nested call visits a
node that was unvisited a moment before, so the `dependency_sort` driver's
`graph.length + 1` can never run out. -/
def strongconnect (graph : List (TypeAssignment × List TypeAssignment)) :
    Nat → TypeAssignment → TarjanState → TarjanState
  | 0, _, s => s
  | fuel + 1, v, s =>
    visitFinish v
      (visitList (strongconnect graph fuel) v (succsOf graph v)
        { counter := s.counter + 1
          stack := v :: s.stack
          lowlinks := dictInsert s.lowlinks v s.counter
          index := dictInsert s.index v s.counter
          result := s.result })
termination_by structural fuel _ _ => fuel

/-- The reverse-lookup table `{a.reference_name(): a for a in assignments}`
(later entries win, like Python dict comprehension). -/
def assignments_by_name (assignments : List TypeAssignment) :
    List (String × TypeAssignment) :=
  assignments.foldl (fun d a => dictInsert d a.reference_name a) []

/-- The dependency graph of `dependency_sort`: each assignment maps to the
assignments its references resolve to (unresolvable references dropped). -/
def dependencyGraph (assignments : List TypeAssignment) :
    List (TypeAssignment × List TypeAssignment) :=
  assignments.map fun a =>
    (a, a.references.filterMap fun r => dictGet (assignments_by_name assignments) r)

/-- `dependency_sort`: run Tarjan from every still-unvisited node, taking
candidate roots in reference-name order (`sorted(graph.keys(), key=...)`,
a stable sort of the insertion-ordered keys).  Components come out in pop
order, dependencies first. -/
def dependency_sort (assignments : List TypeAssignment) :
    List (List TypeAssignment) :=
  (sortedStable (fun a b => decide (a.reference_name ≤ b.reference_name))
      assignments
    |>.foldl
      (fun s v =>
        if (dictGet s.lowlinks v).isNone then
          strongconnect (dependencyGraph assignments)
            ((dependencyGraph assignments).length + 1) v s
        else s)
      ⟨0, [], [], [], []⟩).result

/-- "Visited" in Tarjan terms: the node has a `lowlinks` entry
(the code tests `successor not in lowlinks`). -/
def tvisited (s : TarjanState) (x : TypeAssignment) : Prop :=
  (dictGet s.lowlinks x).isSome = true

/-- All assignments emitted into components so far, in emission order. -/
def temitted (s : TarjanState) : List TypeAssignment :=
  s.result.flatten

/-- The index a visited node was assigned (0 if the node is unvisited). -/
def idxOfT (s : TarjanState) (x : TypeAssignment) : Nat :=
  (dictGet s.index x).getD 0

/-- How many graph keys are still unvisited; nested `strongconnect` calls
strictly decrease this, which is what the fuel argument tracks. -/
def unvisitedCount (graph : List (TypeAssignment × List TypeAssignment))
    (s : TarjanState) : Nat :=
  ((graph.map Prod.fst).filter fun x => !(dictGet s.lowlinks x).isSome).length

/-- Well-formedness of the dependency graph fed to Tarjan: distinct keys and
successors that are themselves keys (`dependencyGraph` guarantees both on
duplicate-free names, since unresolvable references are filtered out). -/
structure TarjanGraph (graph : List (TypeAssignment × List TypeAssignment)) : Prop where
  keysNodup : (graph.map Prod.fst).Nodup
  closed : ∀ e ∈ graph, ∀ w ∈ e.2, w ∈ graph.map Prod.fst

/-- The state invariant of Tarjan's algorithm, as `dependency_sort` runs it:
the stack and the emitted components hold distinct nodes, together they are
exactly the visited nodes, `index` entries mirror `lowlinks` entries and
stay below the counter, the stack is ordered by index (top largest), only
graph keys get visited, and every emitted component's successors land no
later than the component itself (the heart of the dependency order). -/
structure TInv (graph : List (TypeAssignment × List TypeAssignment))
    (s : TarjanState) : Prop where
  stackNodup : s.stack.Nodup
  emitNodup : (temitted s).Nodup
  stackEmitDisj : ∀ x ∈ s.stack, x ∉ temitted s
  visitedIff : ∀ x, tvisited s x ↔ (x ∈ s.stack ∨ x ∈ temitted s)
  indexIff : ∀ x, (dictGet s.index x).isSome = (dictGet s.lowlinks x).isSome
  indexLt : ∀ x i, dictGet s.index x = some i → i < s.counter
  stackSorted : s.stack.Pairwise fun a b => idxOfT s b < idxOfT s a
  visitedKeys : ∀ x, tvisited s x → x ∈ graph.map Prod.fst
  closure : ∀ i (hi : i < s.result.length), ∀ x ∈ s.result.get ⟨i, hi⟩,
    ∀ y ∈ succsOf graph x, y ∈ ((s.result.take (i + 1)).flatten)

/-- What one completed `strongconnect(v)` call guarantees, relating the
entry state `s` to the exit state `s2` (`v` was unvisited on entry). -/
structure TPost (graph : List (TypeAssignment × List TypeAssignment))
    (v : TypeAssignment) (s s2 : TarjanState) : Prop where
  inv : TInv graph s2
  counterMono : s.counter < s2.counter
  indexFrame : ∀ x, tvisited s x → dictGet s2.index x = dictGet s.index x
  lowFrame : ∀ x, tvisited s x → dictGet s2.lowlinks x = dictGet s.lowlinks x
  visitedMono : ∀ x, tvisited s x → tvisited s2 x
  visitedV : tvisited s2 v
  newIndexGe : ∀ x i, ¬ tvisited s x → dictGet s2.index x = some i → s.counter ≤ i
  resultExt : ∃ newComps, s2.result = s.result ++ newComps
  indexV : dictGet s2.index v = some s.counter
  stackShape :
    (s2.stack = s.stack ∧ v ∈ temitted s2) ∨
    (∃ seg, s2.stack = seg ++ s.stack ∧ v ∈ seg ∧
      (∀ u ∈ seg, ¬ tvisited s u) ∧
      (∀ u ∈ seg, ∀ y ∈ succsOf graph u,
        y ∈ temitted s2 ∨
          (y ∈ s2.stack ∧ (dictGet s2.lowlinks v).getD 0 ≤ idxOfT s2 y)) ∧
      (dictGet s2.lowlinks v).getD 0 ≠ s.counter)
  lowLB : s.counter ≤ (dictGet s2.lowlinks v).getD 0 ∨
    ∃ z ∈ s.stack, dictGet s2.index z = some ((dictGet s2.lowlinks v).getD 0)
  lowUB : (dictGet s2.lowlinks v).getD 0 ≤ s.counter

/-- What the successor loop of `strongconnect(v)` guarantees (the state `s`
is the loop entry, after `v` was pushed; `s2` is the loop exit). -/
structure TPostV (graph : List (TypeAssignment × List TypeAssignment))
    (v : TypeAssignment) (ws : List TypeAssignment) (s s2 : TarjanState) : Prop where
  inv : TInv graph s2
  counterMono : s.counter ≤ s2.counter
  indexFrame : ∀ x, tvisited s x → dictGet s2.index x = dictGet s.index x
  lowFrame : ∀ x, tvisited s x → x ≠ v → dictGet s2.lowlinks x = dictGet s.lowlinks x
  visitedMono : ∀ x, tvisited s x → tvisited s2 x
  newIndexGe : ∀ x i, ¬ tvisited s x → dictGet s2.index x = some i → s.counter ≤ i
  resultExt : ∃ newComps, s2.result = s.result ++ newComps
  stackShape : ∃ seg, s2.stack = seg ++ s.stack ∧
    (∀ u ∈ seg, ¬ tvisited s u) ∧
    (∀ u ∈ seg, ∀ y ∈ succsOf graph u,
      y ∈ temitted s2 ∨
        (y ∈ s2.stack ∧ (dictGet s2.lowlinks v).getD 0 ≤ idxOfT s2 y))
  succDone : ∀ w ∈ ws, tvisited s2 w ∧
    (w ∈ temitted s2 ∨
      (w ∈ s2.stack ∧ (dictGet s2.lowlinks v).getD 0 ≤ idxOfT s2 w))
  lowMono : (dictGet s2.lowlinks v).getD 0 ≤ (dictGet s.lowlinks v).getD 0
  lowLB : ∀ (below : List TypeAssignment) (base : Nat),
    (∃ above, s.stack = above ++ v :: below) →
    dictGet s.index v = some base →
    (base ≤ (dictGet s.lowlinks v).getD 0 ∨
      ∃ z ∈ below, dictGet s.index z = some ((dictGet s.lowlinks v).getD 0)) →
    (base ≤ (dictGet s2.lowlinks v).getD 0 ∨
      ∃ z ∈ below, dictGet s2.index z = some ((dictGet s2.lowlinks v).getD 0))

section TarjanDictLemmas

variable {α β : Type} [DecidableEq α]

theorem dictGet_dictInsert (d : List (α × β)) (k : α) (v : β) (x : α) :
    dictGet (dictInsert d k v) x = if k = x then some v else dictGet d x := by
  induction d with
  | nil => simp [dictInsert, dictGet]
  | cons e rest ih =>
    obtain ⟨k0, v0⟩ := e
    by_cases hk : k0 = k
    · subst hk
      by_cases hx : k0 = x
      · subst hx
        simp [dictInsert, dictGet]
      · simp [dictInsert, dictGet, hx]
    · by_cases hx : k0 = x
      · subst hx
        have hkx : ¬ k = k0 := fun h => hk h.symm
        simp [dictInsert, dictGet, hk, hkx]
      · simp [dictInsert, dictGet, hk, hx, ih]

end TarjanDictLemmas

theorem popComponent_spec (v : TypeAssignment) (seg rest : List TypeAssignment)
    (hv : v ∉ seg) :
    popComponent v (seg ++ v :: rest) = (seg ++ [v], rest) := by
  induction seg with
  | nil => simp [popComponent]
  | cons a seg ih =>
    have hav : ¬ a = v := fun h => hv (h ▸ List.mem_cons_self a seg)
    have hv2 : v ∉ seg := fun h => hv (List.mem_cons_of_mem a h)
    simp [popComponent, hav, ih hv2]

theorem tvisited_updateLow (s : TarjanState) (v : TypeAssignment) (n : Nat)
    (x : TypeAssignment) :
    tvisited { s with lowlinks := dictInsert s.lowlinks v n } x ↔
      (v = x ∨ tvisited s x) := by
  simp only [tvisited, dictGet_dictInsert]
  by_cases h : v = x <;> simp [h]

theorem length_filter_le_of_imp {α : Type} (l : List α) (p q : α → Bool)
    (h : ∀ x ∈ l, q x = true → p x = true) :
    (l.filter q).length ≤ (l.filter p).length := by
  induction l with
  | nil => simp
  | cons a l ih =>
    have ih2 := ih fun x hx => h x (List.mem_cons_of_mem a hx)
    by_cases hq : q a = true
    · have hp := h a (List.mem_cons_self a l) hq
      simp [List.filter_cons, hq, hp]
      omega
    · by_cases hp : p a = true
      · simp [List.filter_cons, hq, hp]
        omega
      · simp [List.filter_cons, hq, hp]
        omega

theorem length_filter_lt_of_imp {α : Type} (l : List α) (p q : α → Bool)
    (h : ∀ x ∈ l, q x = true → p x = true) (v : α) (hv : v ∈ l)
    (hp : p v = true) (hq : q v = false) :
    (l.filter q).length < (l.filter p).length := by
  induction l with
  | nil => cases hv
  | cons a l ih =>
    have hrest : ∀ x ∈ l, q x = true → p x = true :=
      fun x hx => h x (List.mem_cons_of_mem a hx)
    rcases List.mem_cons.mp hv with rfl | hvl
    · have hle := length_filter_le_of_imp l p q hrest
      simp [List.filter_cons, hp, hq]
      omega
    · have ihl := ih hrest hvl
      by_cases hqa : q a = true
      · have hpa := h a (List.mem_cons_self a l) hqa
        simp [List.filter_cons, hqa, hpa]
        omega
      · by_cases hpa : p a = true
        · simp [List.filter_cons, hqa, hpa]
          omega
        · simp [List.filter_cons, hqa, hpa]
          omega

theorem unvisitedCount_le (graph : List (TypeAssignment × List TypeAssignment))
    (s s2 : TarjanState) (h : ∀ x, tvisited s x → tvisited s2 x) :
    unvisitedCount graph s2 ≤ unvisitedCount graph s := by
  refine length_filter_le_of_imp _ _ _ ?_
  intro x _ hq
  simp only [Bool.not_eq_true', Bool.not_eq_false] at hq ⊢
  by_contra hc
  have := h x (by simpa [tvisited] using Bool.not_eq_false _ ▸ hc)
  · simp only [tvisited] at this
    rw [this] at hq
    cases hq

theorem option_eq_some_getD {β : Type} (o : Option β) (d : β)
    (h : o.isSome = true) : o = some (o.getD d) := by
  cases o with
  | none => cases h
  | some b => rfl

theorem tinv_updateLow {graph : List (TypeAssignment × List TypeAssignment)}
    {s : TarjanState} (hinv : TInv graph s) (v : TypeAssignment)
    (hv : tvisited s v) (n : Nat) :
    TInv graph { s with lowlinks := dictInsert s.lowlinks v n } := by
  refine
    { stackNodup := hinv.stackNodup
      emitNodup := hinv.emitNodup
      stackEmitDisj := hinv.stackEmitDisj
      visitedIff := ?_
      indexIff := ?_
      indexLt := hinv.indexLt
      stackSorted := hinv.stackSorted
      visitedKeys := ?_
      closure := hinv.closure }
  · intro x
    rw [tvisited_updateLow]
    constructor
    · rintro (rfl | hx)
      · exact (hinv.visitedIff v).mp hv
      · exact (hinv.visitedIff _).mp hx
    · intro hx
      exact Or.inr ((hinv.visitedIff x).mpr hx)
  · intro x
    show (dictGet s.index x).isSome = (dictGet (dictInsert s.lowlinks v n) x).isSome
    rw [dictGet_dictInsert]
    by_cases hvx : v = x
    · subst hvx
      simp only [if_pos rfl, Option.isSome_some]
      rw [hinv.indexIff v]
      exact hv
    · rw [if_neg hvx]
      exact hinv.indexIff x
  · intro x hx
    rw [show tvisited { s with lowlinks := dictInsert s.lowlinks v n } x ↔
        (v = x ∨ tvisited s x) from tvisited_updateLow s v n x] at hx
    rcases hx with rfl | hx
    · exact hinv.visitedKeys v hv
    · exact hinv.visitedKeys _ hx

theorem tpostV_nil {graph : List (TypeAssignment × List TypeAssignment)}
    {s : TarjanState} (hinv : TInv graph s) (v : TypeAssignment) :
    TPostV graph v [] s s := by
  refine
    { inv := hinv
      counterMono := le_refl _
      indexFrame := fun x _ => rfl
      lowFrame := fun x _ _ => rfl
      visitedMono := fun x h => h
      newIndexGe := ?_
      resultExt := ⟨[], (List.append_nil _).symm⟩
      stackShape := ⟨[], rfl, by simp, by simp⟩
      succDone := by simp
      lowMono := le_refl _
      lowLB := fun below base _ _ h => h }
  intro x i hx hix
  exfalso
  have h1 : (dictGet s.index x).isSome = true := by rw [hix]; rfl
  rw [hinv.indexIff x] at h1
  exact hx h1

theorem tpostV_skip {graph : List (TypeAssignment × List TypeAssignment)}
    {s : TarjanState} (hinv : TInv graph s) (v w : TypeAssignment)
    (hwvis : tvisited s w) (hwstack : w ∉ s.stack) :
    TPostV graph v [w] s s := by
  have hbase := tpostV_nil hinv v
  refine
    { inv := hinv
      counterMono := le_refl _
      indexFrame := fun x _ => rfl
      lowFrame := fun x _ _ => rfl
      visitedMono := fun x h => h
      newIndexGe := hbase.newIndexGe
      resultExt := ⟨[], (List.append_nil _).symm⟩
      stackShape := ⟨[], rfl, by simp, by simp⟩
      succDone := ?_
      lowMono := le_refl _
      lowLB := fun below base _ _ h => h }
  intro w' hw'
  rcases List.mem_singleton.mp hw' with rfl
  refine ⟨hwvis, Or.inl ?_⟩
  rcases (hinv.visitedIff w').mp hwvis with hst | hem
  · exact absurd hst hwstack
  · exact hem

theorem tpostV_absorbStack {graph : List (TypeAssignment × List TypeAssignment)}
    {s : TarjanState} (hinv : TInv graph s) (v w : TypeAssignment)
    (hv : v ∈ s.stack) (hwstack : w ∈ s.stack) :
    TPostV graph v [w] s
      { s with
        lowlinks :=
          dictInsert s.lowlinks v
            (min ((dictGet s.lowlinks v).getD 0) ((dictGet s.index w).getD 0)) } := by
  have hvvis : tvisited s v := (hinv.visitedIff v).mpr (Or.inl hv)
  have hwvis : tvisited s w := (hinv.visitedIff w).mpr (Or.inl hwstack)
  set n := min ((dictGet s.lowlinks v).getD 0) ((dictGet s.index w).getD 0) with hn
  have hgetv : dictGet (dictInsert s.lowlinks v n) v = some n := by
    rw [dictGet_dictInsert, if_pos rfl]
  refine
    { inv := tinv_updateLow hinv v hvvis n
      counterMono := le_refl _
      indexFrame := fun x _ => rfl
      lowFrame := ?_
      visitedMono := fun x h => (tvisited_updateLow s v n x).mpr (Or.inr h)
      newIndexGe := (tpostV_nil hinv v).newIndexGe
      resultExt := ⟨[], (List.append_nil _).symm⟩
      stackShape := ⟨[], rfl, by simp, by simp⟩
      succDone := ?_
      lowMono := ?_
      lowLB := ?_ }
  · intro x _ hxv
    show dictGet (dictInsert s.lowlinks v n) x = dictGet s.lowlinks x
    rw [dictGet_dictInsert, if_neg (fun h => hxv h.symm)]
  · intro w' hw'
    rcases List.mem_singleton.mp hw' with rfl
    refine ⟨(tvisited_updateLow s v n w').mpr (Or.inr hwvis), Or.inr ⟨hwstack, ?_⟩⟩
    show (dictGet (dictInsert s.lowlinks v n) v).getD 0 ≤ idxOfT s w'
    rw [hgetv]
    exact min_le_right _ _
  · show (dictGet (dictInsert s.lowlinks v n) v).getD 0 ≤ (dictGet s.lowlinks v).getD 0
    rw [hgetv]
    exact min_le_left _ _
  · intro below base hdec hbase hpre
    obtain ⟨above, habove⟩ := hdec
    show base ≤ (dictGet (dictInsert s.lowlinks v n) v).getD 0 ∨
      ∃ z ∈ below, dictGet s.index z = some ((dictGet (dictInsert s.lowlinks v n) v).getD 0)
    rw [hgetv]
    show base ≤ (Option.some n).getD 0 ∨
      ∃ z ∈ below, dictGet s.index z = some ((Option.some n).getD 0)
    have hidxv : idxOfT s v = base := by simp [idxOfT, hbase]
    rcases le_total ((dictGet s.lowlinks v).getD 0) ((dictGet s.index w).getD 0) with hle | hle
    · have hmin : n = (dictGet s.lowlinks v).getD 0 := min_eq_left hle
      simp only [Option.getD_some, hmin]
      exact hpre
    · have hmin : n = (dictGet s.index w).getD 0 := min_eq_right hle
      simp only [Option.getD_some, hmin]
      have hwsplit : w ∈ above ∨ w = v ∨ w ∈ below := by
        rw [habove] at hwstack
        rcases List.mem_append.mp hwstack with h1 | h2
        · exact Or.inl h1
        · rcases List.mem_cons.mp h2 with h2 | h2
          · exact Or.inr (Or.inl h2)
          · exact Or.inr (Or.inr h2)
      rcases hwsplit with habv | rfl | hbel
      · left
        have hpw := hinv.stackSorted
        rw [habove] at hpw
        have hcross := (List.pairwise_append.mp hpw).2.2 w habv v
          (List.mem_cons_self v below)
        rw [hidxv] at hcross
        exact le_of_lt (by simpa [idxOfT] using hcross)
      · left
        rw [show (dictGet s.index w).getD 0 = base from hidxv]
      · right
        refine ⟨w, hbel, ?_⟩
        have hsome : (dictGet s.index w).isSome = true := by
          rw [hinv.indexIff w]; exact hwvis
        exact option_eq_some_getD _ 0 hsome

theorem temitted_sub {s s2 : TarjanState}
    (h : ∃ nc, s2.result = s.result ++ nc) :
    ∀ y ∈ temitted s, y ∈ temitted s2 := by
  obtain ⟨nc, hnc⟩ := h
  intro y hy
  simp only [temitted, hnc, List.flatten_append, List.mem_append]
  exact Or.inl hy

theorem tpostV_trans {graph : List (TypeAssignment × List TypeAssignment)}
    {v : TypeAssignment} {ws1 ws2 : List TypeAssignment} {s smid s2 : TarjanState}
    (hinvs : TInv graph s) (hv : v ∈ s.stack)
    (h1 : TPostV graph v ws1 s smid) (h2 : TPostV graph v ws2 smid s2) :
    TPostV graph v (ws1 ++ ws2) s s2 := by
  have hvvis : tvisited s v := (hinvs.visitedIff v).mpr (Or.inl hv)
  have htransfer : ∀ y,
      (y ∈ temitted smid ∨
        (y ∈ smid.stack ∧ (dictGet smid.lowlinks v).getD 0 ≤ idxOfT smid y)) →
      (y ∈ temitted s2 ∨
        (y ∈ s2.stack ∧ (dictGet s2.lowlinks v).getD 0 ≤ idxOfT s2 y)) := by
    rintro y (hem | ⟨hst, hle⟩)
    · exact Or.inl (temitted_sub h2.resultExt y hem)
    · right
      have hyvis : tvisited smid y := (h1.inv.visitedIff y).mpr (Or.inl hst)
      obtain ⟨seg2, hseg2, -, -⟩ := h2.stackShape
      refine ⟨by rw [hseg2]; exact List.mem_append_right _ hst, ?_⟩
      have hidx : idxOfT s2 y = idxOfT smid y := by
        simp only [idxOfT, h2.indexFrame y hyvis]
      rw [hidx]
      exact le_trans h2.lowMono hle
  refine
    { inv := h2.inv
      counterMono := le_trans h1.counterMono h2.counterMono
      indexFrame := fun x hx => (h2.indexFrame x (h1.visitedMono x hx)).trans
        (h1.indexFrame x hx)
      lowFrame := fun x hx hxv => (h2.lowFrame x (h1.visitedMono x hx) hxv).trans
        (h1.lowFrame x hx hxv)
      visitedMono := fun x hx => h2.visitedMono x (h1.visitedMono x hx)
      newIndexGe := ?_
      resultExt := ?_
      stackShape := ?_
      succDone := ?_
      lowMono := le_trans h2.lowMono h1.lowMono
      lowLB := ?_ }
  · intro x i hx hix
    by_cases hmid : tvisited smid x
    · rw [h2.indexFrame x hmid] at hix
      exact h1.newIndexGe x i hx hix
    · exact le_trans h1.counterMono (h2.newIndexGe x i hmid hix)
  · obtain ⟨nc1, hnc1⟩ := h1.resultExt
    obtain ⟨nc2, hnc2⟩ := h2.resultExt
    exact ⟨nc1 ++ nc2, by rw [hnc2, hnc1, List.append_assoc]⟩
  · obtain ⟨seg1, hseg1, hunvis1, hperu1⟩ := h1.stackShape
    obtain ⟨seg2, hseg2, hunvis2, hperu2⟩ := h2.stackShape
    refine ⟨seg2 ++ seg1, by rw [hseg2, hseg1, List.append_assoc], ?_, ?_⟩
    · intro u hu
      rcases List.mem_append.mp hu with hu2 | hu1
      · intro hvis
        exact hunvis2 u hu2 (h1.visitedMono u hvis)
      · exact hunvis1 u hu1
    · intro u hu y hy
      rcases List.mem_append.mp hu with hu2 | hu1
      · exact hperu2 u hu2 y hy
      · exact htransfer y (hperu1 u hu1 y hy)
  · intro w hw
    rcases List.mem_append.mp hw with hw1 | hw2
    · obtain ⟨hvis, hdich⟩ := h1.succDone w hw1
      exact ⟨h2.visitedMono w hvis, htransfer w hdich⟩
    · exact h2.succDone w hw2
  · intro below base hdec hbase hpre
    obtain ⟨above, habove⟩ := hdec
    obtain ⟨seg1, hseg1, -, -⟩ := h1.stackShape
    have hdec2 : ∃ above2, smid.stack = above2 ++ v :: below :=
      ⟨seg1 ++ above, by rw [hseg1, habove, List.append_assoc]⟩
    have hbase2 : dictGet smid.index v = some base := by
      rw [h1.indexFrame v hvvis, hbase]
    exact h2.lowLB below base hdec2 hbase2
      (h1.lowLB below base ⟨above, habove⟩ hbase hpre)

theorem tpostV_recurse {graph : List (TypeAssignment × List TypeAssignment)}
    {s s3 : TarjanState} (hinv : TInv graph s) (v w : TypeAssignment)
    (hv : v ∈ s.stack) (hpost : TPost graph w s s3) :
    TPostV graph v [w] s (visitAbsorb v w s3) := by
  have hvvis : tvisited s v := (hinv.visitedIff v).mpr (Or.inl hv)
  have hvvis3 : tvisited s3 v := hpost.visitedMono v hvvis
  have hlowv3 : dictGet s3.lowlinks v = dictGet s.lowlinks v := hpost.lowFrame v hvvis
  set n := min ((dictGet s3.lowlinks v).getD 0) ((dictGet s3.lowlinks w).getD 0) with hn
  have hs2 : visitAbsorb v w s3 = { s3 with lowlinks := dictInsert s3.lowlinks v n } := rfl
  have hgetv : dictGet (dictInsert s3.lowlinks v n) v = some n := by
    rw [dictGet_dictInsert, if_pos rfl]
  have hv3stack : v ∈ s3.stack := by
    rcases hpost.stackShape with ⟨hst, -⟩ | ⟨seg, hseg, -, -, -, -⟩
    · rw [hst]; exact hv
    · rw [hseg]; exact List.mem_append_right _ hv
  rw [hs2]
  refine
    { inv := tinv_updateLow hpost.inv v hvvis3 n
      counterMono := le_of_lt hpost.counterMono
      indexFrame := fun x hx => hpost.indexFrame x hx
      lowFrame := ?_
      visitedMono := fun x hx =>
        (tvisited_updateLow s3 v n x).mpr (Or.inr (hpost.visitedMono x hx))
      newIndexGe := fun x i hx hix => hpost.newIndexGe x i hx hix
      resultExt := hpost.resultExt
      stackShape := ?_
      succDone := ?_
      lowMono := ?_
      lowLB := ?_ }
  · intro x hx hxv
    show dictGet (dictInsert s3.lowlinks v n) x = dictGet s.lowlinks x
    rw [dictGet_dictInsert, if_neg (fun h => hxv h.symm)]
    exact hpost.lowFrame x hx
  · rcases hpost.stackShape with ⟨hst, -⟩ | ⟨seg, hseg, -, hunvis, hperu, -⟩
    · exact ⟨[], by simpa using hst, by simp, by simp⟩
    · refine ⟨seg, hseg, hunvis, ?_⟩
      intro u hu y hy
      rcases hperu u hu y hy with hem | ⟨hst, hle⟩
      · exact Or.inl hem
      · refine Or.inr ⟨hst, ?_⟩
        show (dictGet (dictInsert s3.lowlinks v n) v).getD 0 ≤ idxOfT s3 y
        rw [hgetv]
        exact le_trans (min_le_right _ _) hle
  · intro w' hw'
    rcases List.mem_singleton.mp hw' with rfl
    refine ⟨(tvisited_updateLow s3 v n w').mpr (Or.inr hpost.visitedV), ?_⟩
    rcases hpost.stackShape with ⟨-, hem⟩ | ⟨seg, hseg, hwseg, -, -, -⟩
    · exact Or.inl hem
    · refine Or.inr ⟨by rw [hseg]; exact List.mem_append_left _ hwseg, ?_⟩
      show (dictGet (dictInsert s3.lowlinks v n) v).getD 0 ≤
        (dictGet s3.index w').getD 0
      rw [hgetv, hpost.indexV]
      exact le_trans (min_le_right _ _) hpost.lowUB
  · show (dictGet (dictInsert s3.lowlinks v n) v).getD 0 ≤ (dictGet s.lowlinks v).getD 0
    rw [hgetv]
    show n ≤ (dictGet s.lowlinks v).getD 0
    rw [hn, hlowv3]
    exact min_le_left _ _
  · intro below base hdec hbase hpre
    obtain ⟨above, habove⟩ := hdec
    have hbaselt : base < s.counter := hinv.indexLt v base hbase
    have hbelowstack : ∀ z ∈ below, z ∈ s.stack := by
      intro z hz
      rw [habove]
      exact List.mem_append_right _ (List.mem_cons_of_mem v hz)
    have hgoalget :
        (dictGet (dictInsert s3.lowlinks v n) v).getD 0 = n := by rw [hgetv]; rfl
    rw [hgoalget]
    rcases le_total ((dictGet s3.lowlinks v).getD 0) ((dictGet s3.lowlinks w).getD 0)
      with hle | hle
    · have hneq : n = (dictGet s.lowlinks v).getD 0 := by
        rw [hn, min_eq_left hle, hlowv3]
      rw [hneq]
      rcases hpre with hl | ⟨z, hz, hzi⟩
      · exact Or.inl hl
      · refine Or.inr ⟨z, hz, ?_⟩
        have hzvis : tvisited s z :=
          (hinv.visitedIff z).mpr (Or.inl (hbelowstack z hz))
        rw [hpost.indexFrame z hzvis, hzi]
    · have hneq : n = (dictGet s3.lowlinks w).getD 0 := by
        rw [hn, min_eq_right hle]
      rw [hneq]
      rcases hpost.lowLB with hcounter | ⟨z, hzstack, hzi⟩
      · exact Or.inl (le_trans (le_of_lt hbaselt) hcounter)
      · rw [habove] at hzstack
        rcases List.mem_append.mp hzstack with habv | hrest
        · left
          have hzvis : tvisited s z := (hinv.visitedIff z).mpr
            (Or.inl (by rw [habove]; exact List.mem_append_left _ habv))
          have hpw := hinv.stackSorted
          rw [habove] at hpw
          have hcross := (List.pairwise_append.mp hpw).2.2 z habv v
            (List.mem_cons_self v below)
          have hidxv : idxOfT s v = base := by simp [idxOfT, hbase]
          rw [hidxv] at hcross
          have hzidx : dictGet s.index z = some ((dictGet s3.lowlinks w).getD 0) := by
            rw [← hpost.indexFrame z hzvis, hzi]
          have : idxOfT s z = (dictGet s3.lowlinks w).getD 0 := by
            simp [idxOfT, hzidx]
          rw [this] at hcross
          exact le_of_lt hcross
        · rcases List.mem_cons.mp hrest with rfl | hbel
          · left
            have : dictGet s3.index z = some base := by
              rw [hpost.indexFrame z hvvis, hbase]
            rw [this] at hzi
            have hb := Option.some.inj hzi
            rw [← hb]
          · refine Or.inr ⟨z, hbel, ?_⟩
            show dictGet s3.index z = some ((dictGet s3.lowlinks w).getD 0)
            exact hzi

/-- The entry bookkeeping of `strongconnect(v)` applied to a state. -/
def tpush (v : TypeAssignment) (s : TarjanState) : TarjanState :=
  { counter := s.counter + 1
    stack := v :: s.stack
    lowlinks := dictInsert s.lowlinks v s.counter
    index := dictInsert s.index v s.counter
    result := s.result }

theorem tvisited_tpush (s : TarjanState) (v x : TypeAssignment) :
    tvisited (tpush v s) x ↔ (v = x ∨ tvisited s x) := by
  simp only [tvisited, tpush, dictGet_dictInsert]
  by_cases h : v = x <;> simp [h]

theorem idxOfT_tpush_ne (s : TarjanState) (v x : TypeAssignment) (h : v ≠ x) :
    idxOfT (tpush v s) x = idxOfT s x := by
  simp only [idxOfT, tpush, dictGet_dictInsert, if_neg h]

theorem tinv_push {graph : List (TypeAssignment × List TypeAssignment)}
    {s : TarjanState} (hinv : TInv graph s) (v : TypeAssignment)
    (hunvis : ¬ tvisited s v) (hk : v ∈ graph.map Prod.fst) :
    TInv graph (tpush v s) := by
  have hvstack : v ∉ s.stack := fun h =>
    hunvis ((hinv.visitedIff v).mpr (Or.inl h))
  have hvemit : v ∉ temitted s := fun h =>
    hunvis ((hinv.visitedIff v).mpr (Or.inr h))
  refine
    { stackNodup := List.Nodup.cons hvstack hinv.stackNodup
      emitNodup := hinv.emitNodup
      stackEmitDisj := ?_
      visitedIff := ?_
      indexIff := ?_
      indexLt := ?_
      stackSorted := ?_
      visitedKeys := ?_
      closure := hinv.closure }
  · intro x hx
    rcases List.mem_cons.mp hx with rfl | hx
    · exact hvemit
    · exact hinv.stackEmitDisj x hx
  · intro x
    rw [tvisited_tpush]
    show v = x ∨ tvisited s x ↔ x ∈ v :: s.stack ∨ x ∈ temitted s
    rw [List.mem_cons]
    constructor
    · rintro (rfl | hx)
      · exact Or.inl (Or.inl rfl)
      · rcases (hinv.visitedIff x).mp hx with h | h
        · exact Or.inl (Or.inr h)
        · exact Or.inr h
    · rintro (hx | hx)
      · rcases hx with rfl | hx
        · exact Or.inl rfl
        · exact Or.inr ((hinv.visitedIff x).mpr (Or.inl hx))
      · exact Or.inr ((hinv.visitedIff x).mpr (Or.inr hx))
  · intro x
    show (dictGet (dictInsert s.index v s.counter) x).isSome =
      (dictGet (dictInsert s.lowlinks v s.counter) x).isSome
    rw [dictGet_dictInsert, dictGet_dictInsert]
    by_cases h : v = x
    · rw [if_pos h, if_pos h]
    · rw [if_neg h, if_neg h]
      exact hinv.indexIff x
  · intro x i hx
    rw [show dictGet (tpush v s).index x =
        dictGet (dictInsert s.index v s.counter) x from rfl,
      dictGet_dictInsert] at hx
    show i < s.counter + 1
    by_cases h : v = x
    · rw [if_pos h] at hx
      have := Option.some.inj hx
      omega
    · rw [if_neg h] at hx
      have := hinv.indexLt x i hx
      omega
  · show (v :: s.stack).Pairwise fun a b => idxOfT (tpush v s) b < idxOfT (tpush v s) a
    refine List.pairwise_cons.mpr ⟨?_, ?_⟩
    · intro u hu
      have huv : v ≠ u := fun h => hvstack (h ▸ hu)
      rw [idxOfT_tpush_ne s v u huv]
      have huvis : tvisited s u := (hinv.visitedIff u).mpr (Or.inl hu)
      have husome : (dictGet s.index u).isSome = true := by
        rw [hinv.indexIff u]; exact huvis
      obtain ⟨i, hi⟩ := Option.isSome_iff_exists.mp husome
      have hlt := hinv.indexLt u i hi
      have hidxv : idxOfT (tpush v s) v = s.counter := by
        simp [idxOfT, tpush, dictGet_dictInsert]
      rw [hidxv]
      simp only [idxOfT, hi, Option.getD_some]
      exact hlt
    · refine List.Pairwise.imp_of_mem ?_ hinv.stackSorted
      intro a b ha hb hab
      have hva : v ≠ a := fun h => hvstack (h ▸ ha)
      have hvb : v ≠ b := fun h => hvstack (h ▸ hb)
      rw [idxOfT_tpush_ne s v a hva, idxOfT_tpush_ne s v b hvb]
      exact hab
  · intro x hx
    rcases (tvisited_tpush s v x).mp hx with rfl | hx
    · exact hk
    · exact hinv.visitedKeys x hx

theorem unvisitedCount_lt (graph : List (TypeAssignment × List TypeAssignment))
    (s s2 : TarjanState) (h : ∀ x, tvisited s x → tvisited s2 x)
    (v : TypeAssignment) (hvk : v ∈ graph.map Prod.fst)
    (hv1 : ¬ tvisited s v) (hv2 : tvisited s2 v) :
    unvisitedCount graph s2 < unvisitedCount graph s := by
  refine length_filter_lt_of_imp _ _ _ ?_ v hvk ?_ ?_
  · intro x _ hq
    simp only [Bool.not_eq_true', Bool.not_eq_false] at hq ⊢
    by_contra hc
    have := h x (by simpa [tvisited] using Bool.not_eq_false _ ▸ hc)
    simp only [tvisited] at this
    rw [this] at hq
    cases hq
  · simp only [tvisited] at hv1
    simp [hv1]
  · simp only [tvisited] at hv2
    simp [hv2]

theorem tpost_finish (graph : List (TypeAssignment × List TypeAssignment))
    {s : TarjanState} (hinv : TInv graph s) (v : TypeAssignment)
    (hunvis : ¬ tvisited s v) (hk : v ∈ graph.map Prod.fst)
    {s2 : TarjanState}
    (hpostv : TPostV graph v (succsOf graph v) (tpush v s) s2) :
    TPost graph v s (visitFinish v s2) := by
  have hvstack : v ∉ s.stack := fun h => hunvis ((hinv.visitedIff v).mpr (Or.inl h))
  have hvvis1 : tvisited (tpush v s) v := (tvisited_tpush s v v).mpr (Or.inl rfl)
  have hidx1v : dictGet (tpush v s).index v = some s.counter := by
    show dictGet (dictInsert s.index v s.counter) v = some s.counter
    rw [dictGet_dictInsert, if_pos rfl]
  have hlow1v : dictGet (tpush v s).lowlinks v = some s.counter := by
    show dictGet (dictInsert s.lowlinks v s.counter) v = some s.counter
    rw [dictGet_dictInsert, if_pos rfl]
  have hidx2v : dictGet s2.index v = some s.counter := by
    rw [hpostv.indexFrame v hvvis1, hidx1v]
  have hvis2v : tvisited s2 v := hpostv.visitedMono v hvvis1
  have hlow2v : dictGet s2.lowlinks v = some ((dictGet s2.lowlinks v).getD 0) :=
    option_eq_some_getD _ 0 hvis2v
  have hlUB : (dictGet s2.lowlinks v).getD 0 ≤ s.counter := by
    have h := hpostv.lowMono
    rw [hlow1v] at h
    exact h
  have hlLB : s.counter ≤ (dictGet s2.lowlinks v).getD 0 ∨
      ∃ z ∈ s.stack, dictGet s2.index z = some ((dictGet s2.lowlinks v).getD 0) := by
    refine hpostv.lowLB s.stack s.counter ⟨[], rfl⟩ hidx1v (Or.inl ?_)
    rw [hlow1v]
    exact Nat.le_refl _
  obtain ⟨seg2, hseg2, hunvis2, hperu2⟩ := hpostv.stackShape
  have hstack2 : s2.stack = seg2 ++ v :: s.stack := hseg2
  have hvnotseg2 : v ∉ seg2 := fun h => hunvis2 v h hvvis1
  have hvis1_of : ∀ x, tvisited s x → tvisited (tpush v s) x :=
    fun x hx => (tvisited_tpush s v x).mpr (Or.inr hx)
  have hidxold : ∀ y ∈ s.stack, dictGet s2.index y = dictGet s.index y := by
    intro y hy
    have hyvis : tvisited s y := (hinv.visitedIff y).mpr (Or.inl hy)
    rw [hpostv.indexFrame y (hvis1_of y hyvis)]
    show dictGet (dictInsert s.index v s.counter) y = dictGet s.index y
    rw [dictGet_dictInsert, if_neg (fun h => hvstack (by rw [h]; exact hy))]
  have hidxoldlt : ∀ y ∈ s.stack, idxOfT s2 y < s.counter := by
    intro y hy
    have hyvis : tvisited s y := (hinv.visitedIff y).mpr (Or.inl hy)
    have hsome : (dictGet s.index y).isSome = true := by
      rw [hinv.indexIff y]; exact hyvis
    obtain ⟨i, hi⟩ := Option.isSome_iff_exists.mp hsome
    have := hinv.indexLt y i hi
    simp only [idxOfT, hidxold y hy, hi, Option.getD_some]
    exact this
  have hres : ∃ nc, s2.result = s.result ++ nc := hpostv.resultExt
  have hindexFrame : ∀ x, tvisited s x → dictGet s2.index x = dictGet s.index x := by
    intro x hx
    rw [hpostv.indexFrame x (hvis1_of x hx)]
    show dictGet (dictInsert s.index v s.counter) x = dictGet s.index x
    rw [dictGet_dictInsert, if_neg (fun h => hunvis (by rw [h]; exact hx))]
  have hlowFrame : ∀ x, tvisited s x → dictGet s2.lowlinks x = dictGet s.lowlinks x := by
    intro x hx
    rw [hpostv.lowFrame x (hvis1_of x hx) (fun h => hunvis (by rw [← h]; exact hx))]
    show dictGet (dictInsert s.lowlinks v s.counter) x = dictGet s.lowlinks x
    rw [dictGet_dictInsert, if_neg (fun h => hunvis (by rw [h]; exact hx))]
  have hcounterMono : s.counter < s2.counter := by
    have := hpostv.counterMono
    show s.counter < s2.counter
    have h1 : (tpush v s).counter = s.counter + 1 := rfl
    omega
  have hnewIndexGe : ∀ x i, ¬ tvisited s x → dictGet s2.index x = some i →
      s.counter ≤ i := by
    intro x i hx hix
    by_cases hxv : v = x
    · subst hxv
      rw [hidx2v] at hix
      have := Option.some.inj hix
      omega
    · have hx1 : ¬ tvisited (tpush v s) x := by
        rw [tvisited_tpush]
        rintro (h | h)
        · exact hxv h
        · exact hx h
      have := hpostv.newIndexGe x i hx1 hix
      have h1 : (tpush v s).counter = s.counter + 1 := rfl
      omega
  have hvisitedMono : ∀ x, tvisited s x → tvisited s2 x :=
    fun x hx => hpostv.visitedMono x (hvis1_of x hx)
  show TPost graph v s (visitFinish v s2)
  by_cases hpop : dictGet s2.lowlinks v = dictGet s2.index v
  · -- the component closes here: pop it
    have hleq : (dictGet s2.lowlinks v).getD 0 = s.counter := by
      rw [hlow2v, hidx2v] at hpop
      exact Option.some.inj hpop
    have hpopc := popComponent_spec v seg2 s.stack hvnotseg2
    have hfin : visitFinish v s2 =
        { s2 with stack := s.stack, result := s2.result ++ [seg2 ++ [v]] } := by
      show (if dictGet s2.lowlinks v = dictGet s2.index v then
          { s2 with stack := (popComponent v s2.stack).2
                    result := s2.result ++ [(popComponent v s2.stack).1] }
        else s2) = _
      rw [if_pos hpop, hstack2, hpopc]
    rw [hfin]
    have hnd2 : ((seg2 ++ [v]) ++ s.stack).Nodup := by
      have h := hpostv.inv.stackNodup
      rw [hstack2] at h
      rw [List.append_assoc]
      exact h
    have hcompsub : ∀ x ∈ seg2 ++ [v], x ∈ s2.stack := by
      intro x hx
      rw [hstack2]
      rcases List.mem_append.mp hx with h | h
      · exact List.mem_append_left _ h
      · rcases List.mem_singleton.mp h with rfl
        exact List.mem_append_right _ (List.mem_cons_self _ _)
    have htemit4 :
        temitted { s2 with stack := s.stack, result := s2.result ++ [seg2 ++ [v]] } =
          temitted s2 ++ (seg2 ++ [v]) := by
      simp [temitted]
    have hcompdich : ∀ x ∈ seg2 ++ [v], ∀ y ∈ succsOf graph x,
        y ∈ temitted s2 ∨ y ∈ seg2 ++ [v] := by
      intro x hx y hy
      have hdich : y ∈ temitted s2 ∨
          (y ∈ s2.stack ∧ (dictGet s2.lowlinks v).getD 0 ≤ idxOfT s2 y) := by
        rcases List.mem_append.mp hx with hxseg | hxv
        · exact hperu2 x hxseg y hy
        · rcases List.mem_singleton.mp hxv with rfl
          exact (hpostv.succDone y hy).2
      rcases hdich with hem | ⟨hst, hle⟩
      · exact Or.inl hem
      · right
        rw [hleq] at hle
        rw [hstack2] at hst
        rcases List.mem_append.mp hst with h | h
        · exact List.mem_append_left _ h
        · rcases List.mem_cons.mp h with rfl | h
          · exact List.mem_append_right _ (List.mem_singleton.mpr rfl)
          · exact absurd hle (not_le.mpr (hidxoldlt y h))
    refine
      { inv := ?_
        counterMono := hcounterMono
        indexFrame := hindexFrame
        lowFrame := hlowFrame
        visitedMono := hvisitedMono
        visitedV := hvis2v
        newIndexGe := hnewIndexGe
        resultExt := ?_
        indexV := hidx2v
        stackShape := Or.inl ⟨rfl, ?_⟩
        lowLB := Or.inl (le_of_eq hleq.symm)
        lowUB := by rw [hleq] }
    · refine
        { stackNodup := (List.nodup_append.mp hnd2).2.1
          emitNodup := ?_
          stackEmitDisj := ?_
          visitedIff := ?_
          indexIff := hpostv.inv.indexIff
          indexLt := hpostv.inv.indexLt
          stackSorted := ?_
          visitedKeys := hpostv.inv.visitedKeys
          closure := ?_ }
      · rw [htemit4]
        refine List.nodup_append.mpr
          ⟨hpostv.inv.emitNodup, (List.nodup_append.mp hnd2).1, ?_⟩
        intro a ha hacomp
        exact hpostv.inv.stackEmitDisj a (hcompsub a hacomp) ha
      · intro x hx
        rw [htemit4]
        have hxs2 : x ∈ s2.stack := by
          rw [hstack2]
          exact List.mem_append_right _ (List.mem_cons_of_mem v hx)
        intro hmem
        rcases List.mem_append.mp hmem with h | h
        · exact hpostv.inv.stackEmitDisj x hxs2 h
        · exact (List.nodup_append.mp hnd2).2.2 h hx
      · intro x
        rw [htemit4]
        constructor
        · intro hvis
          have hvis2 : tvisited s2 x := hvis
          rcases (hpostv.inv.visitedIff x).mp hvis2 with hst | hem
          · rw [hstack2] at hst
            rcases List.mem_append.mp hst with h | h
            · exact Or.inr (List.mem_append_right _ (List.mem_append_left _ h))
            · rcases List.mem_cons.mp h with rfl | h
              · exact Or.inr (List.mem_append_right _
                  (List.mem_append_right _ (List.mem_singleton.mpr rfl)))
              · exact Or.inl h
          · exact Or.inr (List.mem_append_left _ hem)
        · intro hx
          show tvisited s2 x
          apply (hpostv.inv.visitedIff x).mpr
          rcases hx with hst | hem
          · left
            rw [hstack2]
            exact List.mem_append_right _ (List.mem_cons_of_mem v hst)
          · rcases List.mem_append.mp hem with h | h
            · exact Or.inr h
            · left
              rw [hstack2]
              rcases List.mem_append.mp h with h2 | h2
              · exact List.mem_append_left _ h2
              · rcases List.mem_singleton.mp h2 with rfl
                exact List.mem_append_right _ (List.mem_cons_self _ _)
      · have h := hpostv.inv.stackSorted
        rw [hstack2] at h
        have h2 : ((seg2 ++ [v]) ++ s.stack).Pairwise
            (fun a b => idxOfT s2 b < idxOfT s2 a) := by
          rw [List.append_assoc]
          exact h
        exact (List.pairwise_append.mp h2).2.1
      · intro i hi x hx y hy
        have hlen : i < s2.result.length + 1 := by
          simpa using hi
        by_cases hilt : i < s2.result.length
        · have hget : (s2.result ++ [seg2 ++ [v]]).get ⟨i, hi⟩ =
              s2.result.get ⟨i, hilt⟩ := by
            rw [List.get_append]
          rw [hget] at hx
          have htk : (s2.result ++ [seg2 ++ [v]]).take (i + 1) =
              s2.result.take (i + 1) := by
            rw [List.take_append_eq_append_take,
              Nat.sub_eq_zero_of_le hilt, List.take_zero, List.append_nil]
          rw [htk]
          exact hpostv.inv.closure i hilt x hx y hy
        · have hieq : i = s2.result.length := by omega
          subst hieq
          have hget : (s2.result ++ [seg2 ++ [v]]).get ⟨s2.result.length, hi⟩ =
              seg2 ++ [v] := by
            simp
          rw [hget] at hx
          have htk : (s2.result ++ [seg2 ++ [v]]).take (s2.result.length + 1) =
              s2.result ++ [seg2 ++ [v]] := by
            apply List.take_of_length_le
            simp
          rw [htk]
          rcases hcompdich x hx y hy with hem | hcomp
          · simp only [List.flatten_append, List.mem_append]
            left
            exact hem
          · simp only [List.flatten_append, List.mem_append]
            right
            simp only [List.flatten_cons, List.flatten_nil, List.append_nil]
            exact hcomp
    · obtain ⟨nc, hnc⟩ := hres
      exact ⟨nc ++ [seg2 ++ [v]], by rw [hnc, List.append_assoc]⟩
    · have hgoal : v ∈ temitted s2 ++ (seg2 ++ [v]) :=
        List.mem_append_right _ (List.mem_append_right _ (List.mem_singleton.mpr rfl))
      rw [htemit4]
      exact hgoal
  · -- the component stays open: the state is returned unchanged
    have hlne : (dictGet s2.lowlinks v).getD 0 ≠ s.counter := by
      intro h
      exact hpop (by rw [hlow2v, hidx2v, h])
    have hfin : visitFinish v s2 = s2 := by
      show (if dictGet s2.lowlinks v = dictGet s2.index v then
          { s2 with stack := (popComponent v s2.stack).2
                    result := s2.result ++ [(popComponent v s2.stack).1] }
        else s2) = s2
      rw [if_neg hpop]
    rw [hfin]
    refine
      { inv := hpostv.inv
        counterMono := hcounterMono
        indexFrame := hindexFrame
        lowFrame := hlowFrame
        visitedMono := hvisitedMono
        visitedV := hvis2v
        newIndexGe := hnewIndexGe
        resultExt := hres
        indexV := hidx2v
        stackShape := Or.inr ⟨seg2 ++ [v], ?_, ?_, ?_, ?_, hlne⟩
        lowLB := hlLB
        lowUB := hlUB }
    · rw [hstack2, List.append_assoc]
      rfl
    · exact List.mem_append_right _ (List.mem_singleton.mpr rfl)
    · intro u hu
      rcases List.mem_append.mp hu with h | h
      · intro hvis
        exact hunvis2 u h (hvis1_of u hvis)
      · rcases List.mem_singleton.mp h with rfl
        exact hunvis
    · intro u hu y hy
      rcases List.mem_append.mp hu with h | h
      · exact hperu2 u h y hy
      · rcases List.mem_singleton.mp h with rfl
        exact (hpostv.succDone y hy).2

theorem visitList_spec (graph : List (TypeAssignment × List TypeAssignment))
    (fuel : Nat) (sc : TypeAssignment → TarjanState → TarjanState)
    (hsc : ∀ w s', TInv graph s' → ¬ tvisited s' w → w ∈ graph.map Prod.fst →
      unvisitedCount graph s' ≤ fuel → TPost graph w s' (sc w s'))
    (v : TypeAssignment) :
    ∀ (ws : List TypeAssignment) (s : TarjanState), TInv graph s →
      v ∈ s.stack → (∀ w ∈ ws, w ∈ graph.map Prod.fst) →
      unvisitedCount graph s ≤ fuel →
      TPostV graph v ws s (visitList sc v ws s) := by
  intro ws
  induction ws with
  | nil =>
    intro s hinv hv _ _
    exact tpostV_nil hinv v
  | cons w ws ih =>
    intro s hinv hv hws hfuel
    by_cases h1 : (dictGet s.lowlinks w).isNone = true
    · have hunvis : ¬ tvisited s w := by
        simp only [tvisited]
        simp only [Option.isNone_iff_eq_none] at h1
        simp [h1]
      have hpost := hsc w s hinv hunvis (hws w (List.mem_cons_self w ws)) hfuel
      have hstep := tpostV_recurse hinv v w hv hpost
      have hinvmid := hstep.inv
      have hvmid : v ∈ (visitAbsorb v w (sc w s)).stack := by
        obtain ⟨seg, hseg, -, -⟩ := hstep.stackShape
        rw [hseg]
        exact List.mem_append_right _ hv
      have hfuelmid : unvisitedCount graph (visitAbsorb v w (sc w s)) ≤ fuel :=
        le_trans (unvisitedCount_le graph s _ hstep.visitedMono) hfuel
      have hrest := ih (visitAbsorb v w (sc w s)) hinvmid hvmid
        (fun w' hw' => hws w' (List.mem_cons_of_mem w hw')) hfuelmid
      have hcomp := tpostV_trans hinv hv hstep hrest
      show TPostV graph v (w :: ws) s (visitList sc v (w :: ws) s)
      rw [show visitList sc v (w :: ws) s =
        visitList sc v ws (visitAbsorb v w (sc w s)) by
          simp [visitList, h1]]
      exact hcomp
    · by_cases h2 : w ∈ s.stack
      · have hstep := tpostV_absorbStack hinv v w hv h2
        set smid : TarjanState :=
          { s with
            lowlinks :=
              dictInsert s.lowlinks v
                (min ((dictGet s.lowlinks v).getD 0)
                  ((dictGet s.index w).getD 0)) } with hsmid
        have hinvmid := hstep.inv
        have hvmid : v ∈ smid.stack := hv
        have hfuelmid : unvisitedCount graph smid ≤ fuel :=
          le_trans (unvisitedCount_le graph s _ hstep.visitedMono) hfuel
        have hrest := ih smid hinvmid hvmid
          (fun w' hw' => hws w' (List.mem_cons_of_mem w hw')) hfuelmid
        have hcomp := tpostV_trans hinv hv hstep hrest
        show TPostV graph v (w :: ws) s (visitList sc v (w :: ws) s)
        rw [show visitList sc v (w :: ws) s = visitList sc v ws smid by
          simp [visitList, h1, h2, hsmid]]
        exact hcomp
      · have hwvis : tvisited s w := by
          simp only [tvisited]
          cases hcase : dictGet s.lowlinks w with
          | none => rw [hcase] at h1; exact absurd rfl h1
          | some _ => rfl
        have hstep := tpostV_skip hinv v w hwvis h2
        have hrest := ih s hinv hv
          (fun w' hw' => hws w' (List.mem_cons_of_mem w hw')) hfuel
        have hcomp := tpostV_trans hinv hv hstep hrest
        show TPostV graph v (w :: ws) s (visitList sc v (w :: ws) s)
        rw [show visitList sc v (w :: ws) s = visitList sc v ws s by
          simp [visitList, h1, h2]]
        exact hcomp

theorem strongconnect_spec (graph : List (TypeAssignment × List TypeAssignment))
    (hg : TarjanGraph graph) :
    ∀ (fuel : Nat) (v : TypeAssignment) (s : TarjanState), TInv graph s →
      ¬ tvisited s v → v ∈ graph.map Prod.fst →
      unvisitedCount graph s ≤ fuel →
      TPost graph v s (strongconnect graph fuel v s) := by
  intro fuel
  induction fuel with
  | zero =>
    intro v s hinv hunvis hk hfuel
    exfalso
    have hfalse : (dictGet s.lowlinks v).isSome = false := by
      simp only [tvisited, Bool.not_eq_true] at hunvis
      exact hunvis
    have hmem : v ∈ (graph.map Prod.fst).filter
        fun x => !(dictGet s.lowlinks x).isSome :=
      List.mem_filter.mpr ⟨hk, by simp [hfalse]⟩
    have hpos : 0 < unvisitedCount graph s := List.length_pos_of_mem hmem
    omega
  | succ fuel ih =>
    intro v s hinv hunvis hk hfuel
    have hinv1 : TInv graph (tpush v s) := tinv_push hinv v hunvis hk
    have hws : ∀ w ∈ succsOf graph v, w ∈ graph.map Prod.fst := by
      intro w hw
      simp only [succsOf] at hw
      cases hget : dictGet graph v with
      | none => rw [hget] at hw; simp at hw
      | some l =>
        rw [hget] at hw
        exact hg.closed (v, l) (dictGet_mem graph v l hget) w hw
    have hvis1mono : ∀ x, tvisited s x → tvisited (tpush v s) x :=
      fun x hx => (tvisited_tpush s v x).mpr (Or.inr hx)
    have hfuel1 : unvisitedCount graph (tpush v s) ≤ fuel := by
      have hlt := unvisitedCount_lt graph s (tpush v s) hvis1mono v hk hunvis
        ((tvisited_tpush s v v).mpr (Or.inl rfl))
      omega
    have hpostv := visitList_spec graph fuel (strongconnect graph fuel)
      (fun w s' h1 h2 h3 h4 => ih w s' h1 h2 h3 h4)
      v (succsOf graph v) (tpush v s) hinv1 (List.mem_cons_self _ _) hws hfuel1
    exact tpost_finish graph hinv v hunvis hk hpostv

theorem tinv_init (graph : List (TypeAssignment × List TypeAssignment)) :
    TInv graph ⟨0, [], [], [], []⟩ := by
  refine
    { stackNodup := List.nodup_nil
      emitNodup := by simp [temitted]
      stackEmitDisj := by simp
      visitedIff := by simp [tvisited, dictGet, temitted]
      indexIff := fun x => rfl
      indexLt := by simp [dictGet]
      stackSorted := List.Pairwise.nil
      visitedKeys := by simp [tvisited, dictGet]
      closure := by simp }

/-- The driver loop of `dependency_sort`: it keeps the invariant, leaves the
stack empty after every top-level call, and visits every listed root. -/
theorem tarjan_driver (graph : List (TypeAssignment × List TypeAssignment))
    (hg : TarjanGraph graph) :
    ∀ (order : List TypeAssignment) (s : TarjanState), TInv graph s →
      s.stack = [] → (∀ w ∈ order, w ∈ graph.map Prod.fst) →
      TInv graph (order.foldl
        (fun s v => if (dictGet s.lowlinks v).isNone then
          strongconnect graph (graph.length + 1) v s else s) s) ∧
      (order.foldl
        (fun s v => if (dictGet s.lowlinks v).isNone then
          strongconnect graph (graph.length + 1) v s else s) s).stack = [] ∧
      (∀ w ∈ order, tvisited (order.foldl
        (fun s v => if (dictGet s.lowlinks v).isNone then
          strongconnect graph (graph.length + 1) v s else s) s) w) ∧
      (∀ x, tvisited s x → tvisited (order.foldl
        (fun s v => if (dictGet s.lowlinks v).isNone then
          strongconnect graph (graph.length + 1) v s else s) s) x) := by
  intro order
  induction order with
  | nil =>
    intro s hinv hstack _
    exact ⟨hinv, hstack, by simp, fun x hx => hx⟩
  | cons v order ih =>
    intro s hinv hstack horder
    rw [List.foldl_cons]
    by_cases hvs : (dictGet s.lowlinks v).isNone = true
    · have hunvis : ¬ tvisited s v := by
        simp only [tvisited]
        simp only [Option.isNone_iff_eq_none] at hvs
        simp [hvs]
      have hfuel : unvisitedCount graph s ≤ graph.length + 1 := by
        have h1 : unvisitedCount graph s ≤ (graph.map Prod.fst).length :=
          List.length_filter_le _ _
        rw [List.length_map] at h1
        omega
      have hpost := strongconnect_spec graph hg (graph.length + 1) v s hinv hunvis
        (horder v (List.mem_cons_self _ _)) hfuel
      have hstep : (if (dictGet s.lowlinks v).isNone then
          strongconnect graph (graph.length + 1) v s else s) =
          strongconnect graph (graph.length + 1) v s := by
        rw [if_pos hvs]
      rw [hstep]
      have hstackmid : (strongconnect graph (graph.length + 1) v s).stack = [] := by
        rcases hpost.stackShape with ⟨hst, -⟩ | ⟨seg, hsegeq, -, -, -, hlowne⟩
        · rw [hst, hstack]
        · exfalso
          rcases hpost.lowLB with hle | ⟨z, hz, -⟩
          · exact hlowne (le_antisymm hpost.lowUB hle)
          · rw [hstack] at hz
            cases hz
      obtain ⟨hinvf, hstackf, hvisf, hmonof⟩ := ih
        (strongconnect graph (graph.length + 1) v s) hpost.inv hstackmid
        (fun w hw => horder w (List.mem_cons_of_mem v hw))
      refine ⟨hinvf, hstackf, ?_, fun x hx => hmonof x (hpost.visitedMono x hx)⟩
      intro w hw
      rcases List.mem_cons.mp hw with rfl | hw
      · exact hmonof w hpost.visitedV
      · exact hvisf w hw
    · have hvvis : tvisited s v := by
        simp only [tvisited]
        cases hcase : dictGet s.lowlinks v with
        | none => rw [hcase] at hvs; exact absurd rfl hvs
        | some _ => rfl
      have hstep : (if (dictGet s.lowlinks v).isNone then
          strongconnect graph (graph.length + 1) v s else s) = s := by
        rw [if_neg hvs]
      rw [hstep]
      obtain ⟨hinvf, hstackf, hvisf, hmonof⟩ := ih s hinv hstack
        (fun w hw => horder w (List.mem_cons_of_mem v hw))
      refine ⟨hinvf, hstackf, ?_, hmonof⟩
      intro w hw
      rcases List.mem_cons.mp hw with rfl | hw
      · exact hmonof w hvvis
      · exact hvisf w hw

theorem dependencyGraph_keys (as : List TypeAssignment) :
    (dependencyGraph as).map Prod.fst = as := by
  simp only [dependencyGraph, List.map_map]
  exact List.map_id as

theorem assignments_by_name_eq_map (as : List TypeAssignment)
    (hnd : (as.map TypeAssignment.reference_name).Nodup) :
    assignments_by_name as = as.map fun a => (a.reference_name, a) := by
  have haux : ∀ (l : List TypeAssignment) (g : List (String × TypeAssignment)),
      (∀ a ∈ l, a.reference_name ∉ dictKeys g) →
      ((l.map TypeAssignment.reference_name).Nodup) →
      l.foldl (fun g a => dictInsert g a.reference_name a) g =
        g ++ l.map fun a => (a.reference_name, a) := by
    intro l
    induction l with
    | nil => intro g _ _; simp
    | cons a t ih =>
      intro g hkeys hnd2
      rw [List.foldl_cons, dictInsert_of_not_mem g _ _ (hkeys a (by simp))]
      rw [List.map_cons] at hnd2
      have hn := List.nodup_cons.mp hnd2
      rw [ih (g ++ [(a.reference_name, a)]) ?_ hn.2]
      · simp
      · intro b hb hc
        rw [dictKeys, List.map_append] at hc
        rcases List.mem_append.mp hc with h2 | h2
        · exact hkeys b (List.mem_cons_of_mem _ hb) h2
        · simp at h2
          exact hn.1 (h2 ▸ List.mem_map_of_mem TypeAssignment.reference_name hb)
  have h := haux as [] (by simp [dictKeys]) hnd
  simpa [assignments_by_name] using h

theorem dictGet_map_name (as : List TypeAssignment)
    (hnd : (as.map TypeAssignment.reference_name).Nodup) (y : TypeAssignment)
    (hy : y ∈ as) :
    dictGet (as.map fun a => (a.reference_name, a)) y.reference_name = some y := by
  induction as with
  | nil => cases hy
  | cons a t ih =>
    rw [List.map_cons] at hnd
    have hn := List.nodup_cons.mp hnd
    rcases List.mem_cons.mp hy with rfl | hyt
    · show dictGet ((y.reference_name, y) :: t.map fun a => (a.reference_name, a))
        y.reference_name = some y
      simp [dictGet]
    · have hne : a.reference_name ≠ y.reference_name := by
        intro h
        exact hn.1 (h ▸ List.mem_map_of_mem TypeAssignment.reference_name hyt)
      show dictGet ((a.reference_name, a) :: t.map fun a => (a.reference_name, a))
        y.reference_name = some y
      simp only [dictGet, if_neg hne]
      exact ih hn.2 hyt

theorem dictGet_map_self {β : Type} (f : TypeAssignment → β)
    (as : List TypeAssignment) (hnd : as.Nodup) (x : TypeAssignment) (hx : x ∈ as) :
    dictGet (as.map fun a => (a, f a)) x = some (f x) := by
  induction as with
  | nil => cases hx
  | cons a t ih =>
    have hn := List.nodup_cons.mp hnd
    rcases List.mem_cons.mp hx with rfl | hxt
    · show dictGet ((x, f x) :: t.map fun a => (a, f a)) x = some (f x)
      simp [dictGet]
    · have hne : a ≠ x := fun h => hn.1 (h ▸ hxt)
      show dictGet ((a, f a) :: t.map fun a => (a, f a)) x = some (f x)
      simp only [dictGet, if_neg hne]
      exact ih hn.2 hxt

theorem dictGet_dependencyGraph (as : List TypeAssignment)
    (hnd : (as.map TypeAssignment.reference_name).Nodup) (x : TypeAssignment)
    (hx : x ∈ as) :
    dictGet (dependencyGraph as) x =
      some (x.references.filterMap fun r => dictGet (assignments_by_name as) r) := by
  exact dictGet_map_self _ as (List.Nodup.of_map _ hnd) x hx

theorem succsOf_dependencyGraph (as : List TypeAssignment)
    (hnd : (as.map TypeAssignment.reference_name).Nodup) (x : TypeAssignment)
    (hx : x ∈ as) (y : TypeAssignment) (hy : y ∈ as)
    (href : y.reference_name ∈ x.references) :
    y ∈ succsOf (dependencyGraph as) x := by
  rw [succsOf, dictGet_dependencyGraph as hnd x hx]
  show y ∈ x.references.filterMap fun r => dictGet (assignments_by_name as) r
  refine List.mem_filterMap.mpr ⟨y.reference_name, href, ?_⟩
  rw [assignments_by_name_eq_map as hnd]
  exact dictGet_map_name as hnd y hy

theorem dependencyGraph_tarjanGraph (as : List TypeAssignment)
    (hnd : (as.map TypeAssignment.reference_name).Nodup) :
    TarjanGraph (dependencyGraph as) := by
  refine ⟨?_, ?_⟩
  · rw [dependencyGraph_keys]
    exact List.Nodup.of_map _ hnd
  · intro e he w hw
    rw [dependencyGraph_keys]
    obtain ⟨a, ha, rfl⟩ := List.mem_map.mp he
    obtain ⟨r, hr, hsome⟩ := List.mem_filterMap.mp hw
    rw [assignments_by_name_eq_map as hnd] at hsome
    obtain ⟨b, hb, hbe⟩ := List.mem_map.mp (dictGet_mem _ _ _ hsome)
    have : b = w := congrArg Prod.snd hbe
    rw [← this]
    exact hb

theorem mem_flatten_take {α : Type} (r : List (List α)) (n : Nat) (y : α)
    (h : y ∈ (r.take n).flatten) :
    ∃ j, ∃ hj : j < r.length, j < n ∧ y ∈ r.get ⟨j, hj⟩ := by
  obtain ⟨s, hs, hys⟩ := List.mem_flatten.mp h
  obtain ⟨⟨j, hjlen⟩, hjs⟩ := List.mem_iff_get.mp hs
  rw [List.length_take] at hjlen
  have hj1 : j < r.length := lt_of_lt_of_le hjlen (min_le_right _ _)
  have hj2 : j < n := lt_of_lt_of_le hjlen (min_le_left _ _)
  refine ⟨j, hj1, hj2, ?_⟩
  have hget : (r.take n).get ⟨j, by rw [List.length_take]; exact hjlen⟩ =
      r.get ⟨j, hj1⟩ := by
    rw [List.get_eq_getElem, List.get_eq_getElem]
    exact List.getElem_take _
  rw [← hget, hjs]
  exact hys

theorem flatten_nodup_not_both {α : Type} (r : List (List α))
    (hnd : r.flatten.Nodup) (i j : Nat) (hi : i < r.length) (hj : j < r.length)
    (hij : i < j) (y : α) (hyi : y ∈ r.get ⟨i, hi⟩) (hyj : y ∈ r.get ⟨j, hj⟩) :
    False := by
  have hflat : r.flatten = (r.take j).flatten ++ (r.drop j).flatten := by
    conv_lhs => rw [← List.take_append_drop j r]
    rw [List.flatten_append]
  rw [hflat] at hnd
  have hyi2 : y ∈ (r.take j).flatten := by
    refine List.mem_flatten.mpr ⟨r.get ⟨i, hi⟩, ?_, hyi⟩
    have hilen : i < (r.take j).length := by
      rw [List.length_take]
      exact lt_min hij hi
    have hget : (r.take j).get ⟨i, hilen⟩ = r.get ⟨i, hi⟩ := by
      rw [List.get_eq_getElem, List.get_eq_getElem]
      exact List.getElem_take _
    rw [← hget]
    exact List.get_mem _ _ _
  have hyj2 : y ∈ (r.drop j).flatten := by
    refine List.mem_flatten.mpr ⟨r.get ⟨j, hj⟩, ?_, hyj⟩
    have hjlen : 0 < (r.drop j).length := by
      rw [List.length_drop]
      omega
    have hget : (r.drop j).get ⟨0, hjlen⟩ = r.get ⟨j, hj⟩ := by
      rw [List.get_eq_getElem, List.get_eq_getElem]
      show (r.drop j)[0] = r[j]
      rw [List.getElem_drop r]
      simp
    rw [← hget]
    exact List.get_mem _ _ _
  exact (List.disjoint_of_nodup_append hnd) hyi2 hyj2

/-- Claim C4: for every list of assignments `A` (with duplicate-free
reference names, so that the structural model coincides with Python's
identity-keyed dicts), `dependency_sort(A)` partitions `A` into components
whose union is `A` — the flattened result is duplicate-free and a
permutation of `A`, so each input assignment appears in exactly one
component — and the returned list is in reverse topological order at the
component level: whenever an assignment in component `i` references an
assignment in a different component `j`, component `j` appears earlier
(each component appears after every component it depends on). -/
theorem claim_c4_dependency_sort (as : List TypeAssignment)
    (hnd : (as.map TypeAssignment.reference_name).Nodup) :
    ((dependency_sort as).flatten).Perm as ∧
    ((dependency_sort as).flatten).Nodup ∧
    (∀ i j (hi : i < (dependency_sort as).length)
        (hj : j < (dependency_sort as).length), i ≠ j →
      ∀ x ∈ (dependency_sort as).get ⟨i, hi⟩,
        ∀ y ∈ (dependency_sort as).get ⟨j, hj⟩,
          y.reference_name ∈ x.references → j < i) := by
  have hg := dependencyGraph_tarjanGraph as hnd
  have hkeys := dependencyGraph_keys as
  have hperm := sortedStable_perm
    (fun a b : TypeAssignment => decide (a.reference_name ≤ b.reference_name)) as
  have horder : ∀ w ∈ sortedStable
      (fun a b : TypeAssignment => decide (a.reference_name ≤ b.reference_name)) as,
      w ∈ (dependencyGraph as).map Prod.fst := by
    intro w hw
    rw [hkeys]
    exact hperm.subset hw
  obtain ⟨hinvf, hstackf, hvisf, -⟩ := tarjan_driver (dependencyGraph as) hg
    (sortedStable
      (fun a b : TypeAssignment => decide (a.reference_name ≤ b.reference_name)) as)
    ⟨0, [], [], [], []⟩ (tinv_init _) rfl horder
  have hallvis : ∀ a ∈ as, tvisited
      ((sortedStable
        (fun a b : TypeAssignment => decide (a.reference_name ≤ b.reference_name))
        as).foldl
        (fun s v => if (dictGet s.lowlinks v).isNone then
          strongconnect (dependencyGraph as) ((dependencyGraph as).length + 1) v s
        else s) ⟨0, [], [], [], []⟩) a :=
    fun a ha => hvisf a (hperm.symm.subset ha)
  have hflat : (dependency_sort as).flatten = temitted
      ((sortedStable
        (fun a b : TypeAssignment => decide (a.reference_name ≤ b.reference_name))
        as).foldl
        (fun s v => if (dictGet s.lowlinks v).isNone then
          strongconnect (dependencyGraph as) ((dependencyGraph as).length + 1) v s
        else s) ⟨0, [], [], [], []⟩) := rfl
  have hsub1 : ∀ y ∈ (dependency_sort as).flatten, y ∈ as := by
    intro y hy
    rw [hflat] at hy
    have hvis : tvisited _ y := (hinvf.visitedIff y).mpr (Or.inr hy)
    have := hinvf.visitedKeys y hvis
    rw [hkeys] at this
    exact this
  have hsub2 : ∀ a ∈ as, a ∈ (dependency_sort as).flatten := by
    intro a ha
    rcases (hinvf.visitedIff a).mp (hallvis a ha) with hst | hem
    · rw [hstackf] at hst
      cases hst
    · rw [hflat]
      exact hem
  have hndflat : ((dependency_sort as).flatten).Nodup := by
    rw [hflat]
    exact hinvf.emitNodup
  have hasnd : as.Nodup := List.Nodup.of_map _ hnd
  refine ⟨?_, hndflat, ?_⟩
  · exact List.Subperm.antisymm (hndflat.subperm hsub1) (hasnd.subperm hsub2)
  · intro i j hi hj hij x hx y hy href
    have hxflat : x ∈ (dependency_sort as).flatten :=
      List.mem_flatten.mpr ⟨_, List.get_mem _ _ _, hx⟩
    have hyflat : y ∈ (dependency_sort as).flatten :=
      List.mem_flatten.mpr ⟨_, List.get_mem _ _ _, hy⟩
    have hxas : x ∈ as := hsub1 x hxflat
    have hyas : y ∈ as := hsub1 y hyflat
    have hsucc : y ∈ succsOf (dependencyGraph as) x :=
      succsOf_dependencyGraph as hnd x hxas y hyas href
    have hclos := hinvf.closure i hi x hx y hsucc
    obtain ⟨j2, hj2, hj2lt, hyj2⟩ := mem_flatten_take _ _ _ hclos
    have hj2i : j2 ≤ i := Nat.lt_succ_iff.mp hj2lt
    have hjj2 : j = j2 := by
      by_contra hne
      rcases Nat.lt_or_ge j j2 with hlt | hge
      · exact flatten_nodup_not_both _ hndflat j j2 hj hj2 hlt y hy hyj2
      · have hlt2 : j2 < j := lt_of_le_of_ne hge (Ne.symm hne)
        exact flatten_nodup_not_both _ hndflat j2 j hj2 hj hlt2 y hyj2 hy
    omega

/-- Witness for C4: on the concrete two-assignment program
`A ::= SEQUENCE { x B }`, `B ::= INTEGER` the hypothesis holds and the
partition and ordering conclusions follow. -/
theorem claim_c4_witness :
    (([TypeAssignment.mk "A" (.constructedType .sequence
          [.componentType (some "x") (some (.definedType none "B")) none false none]),
        TypeAssignment.mk "B" (.simpleType "INTEGER")].map
        TypeAssignment.reference_name).Nodup) ∧
    (((dependency_sort
        [TypeAssignment.mk "A" (.constructedType .sequence
            [.componentType (some "x") (some (.definedType none "B")) none false none]),
          TypeAssignment.mk "B" (.simpleType "INTEGER")]).flatten).Perm
        [TypeAssignment.mk "A" (.constructedType .sequence
            [.componentType (some "x") (some (.definedType none "B")) none false none]),
          TypeAssignment.mk "B" (.simpleType "INTEGER")] ∧
      ((dependency_sort
        [TypeAssignment.mk "A" (.constructedType .sequence
            [.componentType (some "x") (some (.definedType none "B")) none false none]),
          TypeAssignment.mk "B" (.simpleType "INTEGER")]).flatten).Nodup ∧
      (∀ i j (hi : i < (dependency_sort
          [TypeAssignment.mk "A" (.constructedType .sequence
              [.componentType (some "x") (some (.definedType none "B")) none false none]),
            TypeAssignment.mk "B" (.simpleType "INTEGER")]).length)
          (hj : j < (dependency_sort
          [TypeAssignment.mk "A" (.constructedType .sequence
              [.componentType (some "x") (some (.definedType none "B")) none false none]),
            TypeAssignment.mk "B" (.simpleType "INTEGER")]).length), i ≠ j →
        ∀ x ∈ (dependency_sort
            [TypeAssignment.mk "A" (.constructedType .sequence
                [.componentType (some "x") (some (.definedType none "B")) none false none]),
              TypeAssignment.mk "B" (.simpleType "INTEGER")]).get ⟨i, hi⟩,
          ∀ y ∈ (dependency_sort
              [TypeAssignment.mk "A" (.constructedType .sequence
                  [.componentType (some "x") (some (.definedType none "B")) none false none]),
                TypeAssignment.mk "B" (.simpleType "INTEGER")]).get ⟨j, hj⟩,
            y.reference_name ∈ x.references → j < i)) :=
  ⟨by decide, claim_c4_dependency_sort _ (by decide)⟩

end Asn1ate
